import Mathlib

/-! MPI basics: three hello-world programs.

A shallow embedding of `mpi_hello.c`, `mpi_hello_2.c` and `mpi_hello_3.c`.
Each `main` is written as a tree of runtime calls (`Prog`): one node per call
of the MPI library or of `printf`, in source order, with the values the call
hands back (`CLUSTER_SIZE`, `PROCESS_RANK`, the received buffer) bound by the
continuation.  A member is then run either alone against a runtime that
supplies its incoming messages (`exec`), or as one of `size` members of a
group connected by FIFO channels (`step`, `run`).
-/

namespace MpiBasics

/-- The `%d` conversion of `printf`/`sprintf` applied to a C `int`. -/
def fmtD (n : Int) : String := toString n

/-- An observable action of one member. -/
inductive Event where
  | print (line : String)
  | send (dest tag : Int) (count : Nat) (body : String)
  | recv (source tag : Int) (count : Nat) (body : String)
  | finalize
  deriving DecidableEq

/-- A program over the runtime interface used by the three sources.
`mpiSend buf count dest tag` is `MPI_Send(buf, count, MPI_CHAR, dest, tag, MPI_COMM_WORLD)`;
`mpiRecv count source tag` is
`MPI_Recv(buf, count, MPI_CHAR, source, tag, MPI_COMM_WORLD, MPI_STATUS_IGNORE)`
and its continuation receives the C string left in `buf`. -/
inductive Prog where
  | mpiInit (k : Prog)
  | commSize (k : Int → Prog)
  | commRank (k : Int → Prog)
  | printf (line : String) (k : Prog)
  | mpiSend (buf : String) (count : Nat) (dest tag : Int) (k : Prog)
  | mpiRecv (count : Nat) (source tag : Int) (k : String → Prog)
  | mpiFinalize (k : Prog)
  | ret (status : Int)

end MpiBasics

/-! ## `mpi_hello.c` -/

namespace mpi_hello
open MpiBasics

/-- The function `main` of `mpi_hello.c` (lines 45-65). -/
def main : Prog :=
  .mpiInit <|
  .commSize fun CLUSTER_SIZE =>
  .commRank fun PROCESS_RANK =>
  .printf ("Hello World from process " ++ fmtD PROCESS_RANK ++ " of " ++ fmtD CLUSTER_SIZE ++ "\n") <|
  .mpiFinalize <|
  .ret 0

end mpi_hello

/-! ## `mpi_hello_2.c` -/

namespace mpi_hello_2
open MpiBasics

/-- The loop `for (int i = 1; i < CLUSTER_SIZE; i++) { ... }` of lines 64-67,
entered with the current value of `i`; `k` is the code after the loop.
`i < CLUSTER_SIZE` holds wherever `i + 1` is computed, so the increment
never leaves the range of `int`. -/
def rootLoop (PROCESS_RANK CLUSTER_SIZE : Int) (i : Int) (k : Prog) : Prog :=
  if i < CLUSTER_SIZE then
    .mpiRecv 100 i 0 fun MESSAGE_ITEM =>
    .printf ("(Process " ++ fmtD PROCESS_RANK ++ ") Received message: \"" ++ MESSAGE_ITEM
        ++ "\" from process " ++ fmtD i ++ "\n") <|
    rootLoop PROCESS_RANK CLUSTER_SIZE (i + 1) k
  else k
termination_by (CLUSTER_SIZE - i).toNat
decreasing_by omega

/-- The function `main` of `mpi_hello_2.c` (lines 43-74). -/
def main : Prog :=
  .mpiInit <|
  .commSize fun CLUSTER_SIZE =>
  .commRank fun PROCESS_RANK =>
  if PROCESS_RANK != 0 then
    let MESSAGE_ITEM := "Hello from process " ++ fmtD PROCESS_RANK ++ " of " ++ fmtD CLUSTER_SIZE ++ "!"
    .printf ("(Process " ++ fmtD PROCESS_RANK ++ ") Sending message: \"" ++ MESSAGE_ITEM
        ++ "\" to process 0.\n") <|
    .mpiSend MESSAGE_ITEM 100 0 0 <|
    .mpiFinalize <|
    .ret 0
  else
    rootLoop PROCESS_RANK CLUSTER_SIZE 1 <|
    .mpiFinalize <|
    .ret 0

end mpi_hello_2

/-! ## `mpi_hello_3.c` -/

namespace mpi_hello_3
open MpiBasics

/-- The loop `for (int i = 1; i < CLUSTER_SIZE; i++) { ... }` of lines 74-82,
entered with the current value of `i`; `k` is the code after the loop. -/
def rootLoop (CLUSTER_SIZE : Int) (i : Int) (k : Prog) : Prog :=
  if i < CLUSTER_SIZE then
    .mpiRecv 100 i 0 fun MESSAGE_ITEM =>
    .printf ("(Process 0) Received message: \"" ++ MESSAGE_ITEM ++ "\" from process "
        ++ fmtD i ++ "\n") <|
    let RESPONSE := "Acknowledgment from process 0 to process " ++ fmtD i
    .printf ("(Process 0) Sending message: \"" ++ RESPONSE ++ "\" to process " ++ fmtD i ++ "\n") <|
    .mpiSend RESPONSE 100 i 0 <|
    rootLoop CLUSTER_SIZE (i + 1) k
  else k
termination_by (CLUSTER_SIZE - i).toNat
decreasing_by omega

/-- The function `main` of `mpi_hello_3.c` (lines 47-89). -/
def main : Prog :=
  .mpiInit <|
  .commSize fun CLUSTER_SIZE =>
  .commRank fun PROCESS_RANK =>
  if PROCESS_RANK != 0 then
    let MESSAGE_ITEM := "Hello from process " ++ fmtD PROCESS_RANK ++ " of " ++ fmtD CLUSTER_SIZE ++ "!"
    .printf ("(Process " ++ fmtD PROCESS_RANK ++ ") Sending message: \"" ++ MESSAGE_ITEM
        ++ "\" to process 0.\n") <|
    .mpiSend MESSAGE_ITEM 100 0 0 <|
    .mpiRecv 100 0 0 fun RESPONSE =>
    .printf ("(Process " ++ fmtD PROCESS_RANK ++ ") Received response: \"" ++ RESPONSE
        ++ "\" from process 0.\n") <|
    .mpiFinalize <|
    .ret 0
  else
    rootLoop CLUSTER_SIZE 1 <|
    .mpiFinalize <|
    .ret 0

end mpi_hello_3

/-! ## One member against its runtime -/

namespace MpiBasics

/-- Modelled from the spec: the `initialize()` step of the group runtime
(the MPI library, which is not part of the sources) "fails the whole program
(fatal, non-recoverable)" and ends the member "with non-zero status".  A
failure is therefore the exit status with which the runtime ends the member. -/
structure InitFailure where
  status : Int
  nonzero : status ≠ 0

/-- What the runtime hands to one member: whether `MPI_Init` fails, the
rank and the size of `MPI_COMM_WORLD`, and the C string that the `n`-th
completed `MPI_Recv` of the member (counted from 0) leaves in its buffer. -/
structure Runtime where
  initFailure : Option InitFailure
  rank : Int
  size : Int
  inbox : Nat → String

/-- The result of running one member to its end. -/
structure Outcome where
  trace : List Event
  exit : Int

/-- Put the event `e` in front of an outcome's trace. -/
def Outcome.after (e : Event) (o : Outcome) : Outcome := ⟨e :: o.trace, o.exit⟩

/-- Run `p` for one member; `n` counts the receives completed so far.  A
failing `MPI_Init` ends the member there, with the status of the failure. -/
def execFrom (rt : Runtime) : Prog → Nat → Outcome
  | .mpiInit k, n =>
      match rt.initFailure with
      | some f => ⟨[], f.status⟩
      | none => execFrom rt k n
  | .commSize k, n => execFrom rt (k rt.size) n
  | .commRank k, n => execFrom rt (k rt.rank) n
  | .printf line k, n => (execFrom rt k n).after (.print line)
  | .mpiSend buf count dest tag k, n => (execFrom rt k n).after (.send dest tag count buf)
  | .mpiRecv count source tag k, n =>
      (execFrom rt (k (rt.inbox n)) (n + 1)).after (.recv source tag count (rt.inbox n))
  | .mpiFinalize k, n => (execFrom rt k n).after .finalize
  | .ret status, _ => ⟨[], status⟩

/-- Run a whole program for one member. -/
def exec (rt : Runtime) (p : Prog) : Outcome := execFrom rt p 0

/-- Is the event a send or a receive? -/
def Event.isComm : Event → Bool
  | .send .. => true
  | .recv .. => true
  | _ => false

/-- The communication actions of a trace, in order. -/
def commActions (t : List Event) : List Event := t.filter Event.isComm

/-! ## Single-member runs: the expected traces -/

/-- Put a list of events in front of an outcome's trace. -/
def Outcome.afterAll (es : List Event) (o : Outcome) : Outcome := ⟨es ++ o.trace, o.exit⟩

/-- The events of one iteration of the root's loop in `mpi_hello_2.c`:
the receive from `i` and the report line. -/
def collectRound (rank i : Int) (body : String) : List Event :=
  [.recv i 0 100 body,
   .print ("(Process " ++ fmtD rank ++ ") Received message: \"" ++ body
      ++ "\" from process " ++ fmtD i ++ "\n")]

/-- The events of one iteration of the root's loop in `mpi_hello_3.c`: the
receive from `i`, the two report lines and the acknowledgment sent to `i`. -/
def exchangeRound (i : Int) (body : String) : List Event :=
  [.recv i 0 100 body,
   .print ("(Process 0) Received message: \"" ++ body ++ "\" from process " ++ fmtD i ++ "\n"),
   .print ("(Process 0) Sending message: \"" ++ ("Acknowledgment from process 0 to process " ++ fmtD i)
      ++ "\" to process " ++ fmtD i ++ "\n"),
   .send i 0 100 ("Acknowledgment from process 0 to process " ++ fmtD i)]

/-- Is the event a send? -/
def Event.isSend : Event → Bool
  | .send .. => true
  | _ => false

/-- The sends of a trace, in order. -/
def sendsOf (t : List Event) : List Event := t.filter Event.isSend

/-- The runtime of a member whose `MPI_Init` succeeds. -/
def Runtime.ok (rank size : Int) (inbox : Nat → String) : Runtime := ⟨none, rank, size, inbox⟩

/-- The `(sender, receiver, tag)` triples of the sends in the trace of the
member with rank `rank`. -/
def sendTriples (rank : Int) (t : List Event) : List (Int × Int × Int) :=
  t.filterMap fun
    | .send dest tag _ _ => some (rank, dest, tag)
    | _ => none

/-- The `(expected sender, receiver, tag)` triples of the receives in the
trace of the member with rank `rank`. -/
def recvTriples (rank : Int) (t : List Event) : List (Int × Int × Int) :=
  t.filterMap fun
    | .recv source tag _ _ => some (source, rank, tag)
    | _ => none

/-- The send triples of all members `0, ..., size-1` running `p`; member `r`
is handed the incoming messages `inbox r`. -/
def groupSends (p : Prog) (size : Int) (inbox : Nat → Nat → String) : List (Int × Int × Int) :=
  (List.range size.toNat).flatMap fun r =>
    sendTriples r (exec (Runtime.ok r size (inbox r)) p).trace

/-- The receive triples of all members `0, ..., size-1` running `p`. -/
def groupRecvs (p : Prog) (size : Int) (inbox : Nat → Nat → String) : List (Int × Int × Int) :=
  (List.range size.toNat).flatMap fun r =>
    recvTriples r (exec (Runtime.ok r size (inbox r)) p).trace

/-- The three programs of the repository. -/
def programs : List Prog := [mpi_hello.main, mpi_hello_2.main, mpi_hello_3.main]

/-! ## The group: all members over FIFO channels -/

/-- A message in transit: the tag of the send and the C string held by the
buffer that was sent. -/
structure Envelope where
  tag : Int
  body : String
  deriving DecidableEq

/-- One member of the group: the code it still has to run and the events it
has performed, oldest first. -/
structure Member where
  prog : Prog
  trace : List Event

/-- The local effect of the member's next call; `msg` is the C string
delivered if that call is a receive.  A member that has returned stays as it is. -/
def Member.advance (size rank : Int) (msg : String) (m : Member) : Member :=
  match m.prog with
  | .mpiInit k => ⟨k, m.trace⟩
  | .commSize k => ⟨k size, m.trace⟩
  | .commRank k => ⟨k rank, m.trace⟩
  | .printf line k => ⟨k, m.trace ++ [.print line]⟩
  | .mpiSend buf count dest tag k => ⟨k, m.trace ++ [.send dest tag count buf]⟩
  | .mpiRecv count source tag k => ⟨k msg, m.trace ++ [.recv source tag count msg]⟩
  | .mpiFinalize k => ⟨k, m.trace ++ [.finalize]⟩
  | .ret status => ⟨.ret status, m.trace⟩

/-- A configuration of the group: its size, the members by rank, and for
each ordered pair `src dst` the messages in transit from `src` to `dst`,
oldest first. -/
structure Config where
  size : Int
  member : Int → Member
  chan : Int → Int → List Envelope

/-- Every member is about to start `p`; nothing is in transit. -/
def Config.init (p : Prog) (size : Int) : Config := ⟨size, fun _ => ⟨p, []⟩, fun _ _ => []⟩

/-- Replace the member of rank `r`. -/
def Config.setMember (c : Config) (r : Int) (m : Member) : Config :=
  { c with member := fun x => if x = r then m else c.member x }

/-- Replace the content of the channel from `src` to `dst`. -/
def Config.setChan (c : Config) (src dst : Int) (q : List Envelope) : Config :=
  { c with chan := fun a b => if a = src ∧ b = dst then q else c.chan a b }

/-- Take the oldest message with tag `tag` out of a channel. -/
def takeFirst (tag : Int) : List Envelope → Option (Envelope × List Envelope)
  | [] => none
  | e :: es =>
      if e.tag = tag then some (e, es)
      else match takeFirst tag es with
        | some (m, rest) => some (m, e :: rest)
        | none => none

/-- The next call of the member of rank `r` when sends are buffered, or
`none` when it cannot move: it has returned, or it is blocked in `MPI_Recv`
with no matching message in transit.  `MPI_Send` hands the message to the
channel and returns; `MPI_Recv` takes the oldest message from the named
sender with the named tag.  `MPI_Init` succeeds for every member. -/
def stepBuffered (c : Config) (r : Int) : Option Config :=
  let m := c.member r
  match m.prog with
  | .ret _ => none
  | .mpiSend buf _ dest tag _ =>
      some ((c.setMember r (m.advance c.size r "")).setChan r dest
        (c.chan r dest ++ [⟨tag, buf⟩]))
  | .mpiRecv _ source tag _ =>
      match takeFirst tag (c.chan source r) with
      | some (e, rest) =>
          some ((c.setMember r (m.advance c.size r e.body)).setChan source r rest)
      | none => none
  | _ => some (c.setMember r (m.advance c.size r ""))

/-- A message sent by `r` to a member of the group is still in transit. -/
def Config.pending (c : Config) (r : Int) : Bool :=
  (List.range c.size.toNat).any fun d => !(c.chan r (d : Int)).isEmpty

/-- One step of the member of rank `r`.  With `sync = false` sends are
buffered: `MPI_Send` returns as soon as the message is in the channel.  With
`sync = true` sends are synchronous: `MPI_Send` returns only when the message
has been received, so the member cannot move while a message it sent is
still in transit. -/
def step (sync : Bool) (c : Config) (r : Int) : Option Config :=
  if sync && c.pending r then none else stepBuffered c r

/-- Run a schedule: the ranks of the members that move, in order.  The
result is `none` when the schedule names a rank outside the group or a
member that cannot move. -/
def run (sync : Bool) (c : Config) : List Int → Option Config
  | [] => some c
  | r :: rs =>
      if 0 ≤ r ∧ r < c.size then
        match step sync c r with
        | some c' => run sync c' rs
        | none => none
      else none

/-- Every member of the group has returned with status 0. -/
def Config.Finished (c : Config) : Prop :=
  ∀ r : Int, 0 ≤ r → r < c.size → (c.member r).prog = .ret 0

/-- The receives of a trace, in order. -/
def recvsOf (t : List Event) : List Event :=
  t.filter fun
    | .recv .. => true
    | _ => false

/-- The greeting text of member `k` in a group of `size`. -/
def greeting (k size : Int) : String :=
  "Hello from process " ++ fmtD k ++ " of " ++ fmtD size ++ "!"

/-- The acknowledgment text of the root for member `k`. -/
def ackText (k : Int) : String := "Acknowledgment from process 0 to process " ++ fmtD k

/-- The root of `mpi_hello_3.c` after `j` of its calls, when each receive
delivers the greeting of the sender it names.  Calls 0-2 are the start-up,
calls `4i-1, 4i, 4i+1, 4i+2` are round `i` of the loop. -/
def rootMember (size : Int) : Nat → Member
  | 0 => ⟨mpi_hello_3.main, []⟩
  | j + 1 => (rootMember size j).advance size 0 (greeting (((j + 1) / 4 : Nat) : Int) size)

/-- The member `k` of `mpi_hello_3.c` after `p` of its calls, when its
receive delivers the acknowledgment for `k`. -/
def nonRootMember (size k : Int) : Nat → Member
  | 0 => ⟨mpi_hello_3.main, []⟩
  | p + 1 => (nonRootMember size k p).advance size k (ackText k)

/-- The program left after the next call; `msg` is the C string delivered if
that call is a receive. -/
def Prog.next (size rank : Int) (msg : String) : Prog → Prog
  | .mpiInit k => k
  | .commSize k => k size
  | .commRank k => k rank
  | .printf _ k => k
  | .mpiSend _ _ _ _ k => k
  | .mpiRecv _ _ _ k => k msg
  | .mpiFinalize k => k
  | .ret status => .ret status

/-- The next call touches no channel and cannot block: it is neither a
send, nor a receive, nor the return from `main`. -/
def Prog.isLocal : Prog → Bool
  | .mpiInit _ => true
  | .commSize _ => true
  | .commRank _ => true
  | .printf _ _ => true
  | .mpiFinalize _ => true
  | _ => false

/-- The state of non-root member `k` of `mpi_hello_3.c` and of its two
channels, when the root has made `j` calls and the member `p`: the greeting
is in transit from the member's send (call 4) to the root's receive (call
`4k-1`), the acknowledgment from the root's send (call `4k+2`) to the
member's receive (call 5). -/
def MemberInv (size : Int) (c : Config) (j p : Nat) (k : Int) : Prop :=
  c.member k = nonRootMember size k p ∧ p ≤ 8
    ∧ c.chan k 0 = (if 5 ≤ p ∧ (j : Int) < 4 * k then [⟨0, greeting k size⟩] else [])
    ∧ c.chan 0 k = (if 4 * k + 3 ≤ (j : Int) ∧ p < 6 then [⟨0, ackText k⟩] else [])
    ∧ (4 * k ≤ (j : Int) → 5 ≤ p)
    ∧ (6 ≤ p → 4 * k + 3 ≤ (j : Int))

/-- The configurations of the group of `mpi_hello_3.c` after `L` steps: the
root has made `j` calls, member `k` has made `pc k`, together `L`; nothing
is in transit between two non-root members or from the root to itself. -/
def Inv (size : Int) (L : Nat) (c : Config) : Prop :=
  c.size = size ∧ ∃ (j : Nat) (pc : Int → Nat),
    c.member 0 = rootMember size j ∧ j ≤ 4 * (size - 1).toNat + 4
      ∧ L = j + Finset.sum (Finset.Ico 1 size) pc
      ∧ (∀ k : Int, 1 ≤ k → k < size → MemberInv size c j (pc k) k)
      ∧ ∀ a b : Int, (a = 0 ↔ b = 0) → c.chan a b = []

/-- The group of two members of `mpi_hello_3.c` after both have returned. -/
def exchangeOfTwoDone : Config where
  size := 2
  member := fun x =>
    if x = 0 then
      ⟨.ret 0,
       [.recv 1 0 100 "Hello from process 1 of 2!",
        .print "(Process 0) Received message: \"Hello from process 1 of 2!\" from process 1\n",
        .print ("(Process 0) Sending message: \"Acknowledgment from process 0 to process 1\""
          ++ " to process 1\n"),
        .send 1 0 100 "Acknowledgment from process 0 to process 1",
        .finalize]⟩
    else if x = 1 then
      ⟨.ret 0,
       [.print "(Process 1) Sending message: \"Hello from process 1 of 2!\" to process 0.\n",
        .send 0 0 100 "Hello from process 1 of 2!",
        .recv 0 0 100 "Acknowledgment from process 0 to process 1",
        .print ("(Process 1) Received response: \"Acknowledgment from process 0 to process 1\""
          ++ " from process 0.\n"),
        .finalize]⟩
    else ⟨mpi_hello_3.main, []⟩
  chan := fun _ _ => []

/-! ## Properties -/

theorem range_succ_flatMap {β : Type} (m : Nat) (f : Nat → List β) :
    (List.range (m + 1)).flatMap f = f 0 ++ (List.range m).flatMap (fun j => f (j + 1)) := by
  rw [List.range_succ_eq_map, List.flatMap_cons]
  congr 1
  induction List.range m with
  | nil => rfl
  | cons a l ih => simp [List.flatMap_cons, ih]

/-- The root's loop of `mpi_hello_2.c`, entered at `i` with `m` iterations
to go, performs `m` rounds and then runs the code after the loop. -/
theorem execFrom_rootLoop_collect (rt : Runtime) (r size : Int) (k : Prog) :
    ∀ (m : Nat) (i : Int) (n : Nat), (size - i).toNat = m →
      execFrom rt (mpi_hello_2.rootLoop r size i k) n =
        Outcome.afterAll
          ((List.range m).flatMap fun j => collectRound r (i + j) (rt.inbox (n + j)))
          (execFrom rt k (n + m)) := by
  intro m
  induction m with
  | zero =>
    intro i n h
    have hi : ¬ i < size := by omega
    rw [mpi_hello_2.rootLoop, if_neg hi]
    simp [Outcome.afterAll]
  | succ m ih =>
    intro i n h
    have hi : i < size := by omega
    rw [mpi_hello_2.rootLoop, if_pos hi]
    simp only [execFrom]
    rw [ih (i + 1) (n + 1) (by omega), range_succ_flatMap]
    have e1 : n + 1 + m = n + (m + 1) := by omega
    have e2 : ∀ j : Nat, i + 1 + (j : Int) = i + ((j + 1 : Nat) : Int) := by
      intro j; push_cast; ring
    have e3 : ∀ j : Nat, n + 1 + j = n + (j + 1) := by intro j; omega
    simp only [e1, e2, e3]
    simp [collectRound, Outcome.afterAll, Outcome.after]

theorem exec_main2_root (size : Int) (inbox : Nat → String) :
    exec (Runtime.ok 0 size inbox) mpi_hello_2.main =
      Outcome.afterAll
        ((List.range (size - 1).toNat).flatMap fun j => collectRound 0 (j + 1) (inbox j))
        ⟨[.finalize], 0⟩ := by
  have h := execFrom_rootLoop_collect (Runtime.ok 0 size inbox) 0 size
    (.mpiFinalize (.ret 0)) (size - 1).toNat 1 0 rfl
  simp only [exec, mpi_hello_2.main, execFrom, Runtime.ok] at h ⊢
  simp only [bne_self_eq_false, Bool.false_eq_true, if_false]
  rw [h]
  simp [Outcome.after, add_comm]

theorem commActions_collect_rounds (r : Int) (inbox : Nat → String) (m : Nat) :
    commActions ((List.range m).flatMap fun j => collectRound r (j + 1) (inbox j)) =
      (List.range m).map fun (j : Nat) => Event.recv ((j : Int) + 1) 0 100 (inbox j) := by
  induction m with
  | zero => rfl
  | succ m ih =>
    unfold commActions at ih ⊢
    rw [List.range_succ, List.flatMap_append, List.filter_append, ih, List.map_append]
    simp [collectRound, Event.isComm, List.flatMap]

/-- C1. Collect mode, root member of `mpi_hello_2.c` (rank 0): for every group
size the member's trace is, for `k = 1, 2, ..., size-1` in this order, the
receive naming sender `k` with tag 0 followed by the report line that carries
the received payload and `k`, and then the teardown; its communication actions
are exactly these `size-1` receives and it sends nothing. -/
theorem collect_root_actions (size : Int) (inbox : Nat → String) :
    (exec (Runtime.ok 0 size inbox) mpi_hello_2.main).trace =
        ((List.range (size - 1).toNat).flatMap fun (j : Nat) =>
          [Event.recv ((j : Int) + 1) 0 100 (inbox j),
           Event.print ("(Process " ++ fmtD 0 ++ ") Received message: \"" ++ inbox j
              ++ "\" from process " ++ fmtD ((j : Int) + 1) ++ "\n")]) ++ [Event.finalize]
      ∧ commActions (exec (Runtime.ok 0 size inbox) mpi_hello_2.main).trace =
        (List.range (size - 1).toNat).map
          (fun (j : Nat) => Event.recv ((j : Int) + 1) 0 100 (inbox j))
      ∧ (commActions (exec (Runtime.ok 0 size inbox) mpi_hello_2.main).trace).length
        = (size - 1).toNat
      ∧ sendsOf (exec (Runtime.ok 0 size inbox) mpi_hello_2.main).trace = [] := by
  have hc := commActions_collect_rounds 0 inbox (size - 1).toNat
  rw [exec_main2_root]
  simp only [Outcome.afterAll]
  refine ⟨rfl, ?_, ?_, ?_⟩
  · unfold commActions at hc ⊢
    rw [List.filter_append, hc]
    simp [Event.isComm]
  · unfold commActions at hc ⊢
    rw [List.filter_append, hc]
    simp [Event.isComm]
  · simp [sendsOf, List.filter_eq_nil_iff, collectRound, Event.isSend]
    intro e j _ he
    rcases he with rfl | rfl <;> simp [Event.isSend]

theorem exec_main2_nonroot (k size : Int) (inbox : Nat → String) (hk : k ≠ 0) :
    (exec (Runtime.ok k size inbox) mpi_hello_2.main).trace =
      [Event.print ("(Process " ++ fmtD k ++ ") Sending message: \""
          ++ ("Hello from process " ++ fmtD k ++ " of " ++ fmtD size ++ "!")
          ++ "\" to process 0.\n"),
       Event.send 0 0 100 ("Hello from process " ++ fmtD k ++ " of " ++ fmtD size ++ "!"),
       Event.finalize] := by
  have hb : (k != 0) = true := by simpa using hk
  simp only [exec, mpi_hello_2.main, execFrom, Runtime.ok, hb, if_true, Outcome.after]

/-- C4. Collect mode, non-root member of `mpi_hello_2.c` (rank `k ≠ 0`): the
member reports, performs one send to rank 0 with tag 0 whose payload is
"Hello from process k of size!", and tears down; the send is its only
communication action. -/
theorem collect_nonroot_actions (k size : Int) (inbox : Nat → String) (hk : k ≠ 0) :
    (exec (Runtime.ok k size inbox) mpi_hello_2.main).trace =
        [Event.print ("(Process " ++ fmtD k ++ ") Sending message: \""
            ++ ("Hello from process " ++ fmtD k ++ " of " ++ fmtD size ++ "!")
            ++ "\" to process 0.\n"),
         Event.send 0 0 100 ("Hello from process " ++ fmtD k ++ " of " ++ fmtD size ++ "!"),
         Event.finalize]
      ∧ commActions (exec (Runtime.ok k size inbox) mpi_hello_2.main).trace =
        [Event.send 0 0 100 ("Hello from process " ++ fmtD k ++ " of " ++ fmtD size ++ "!")] := by
  have h := exec_main2_nonroot k size inbox hk
  refine ⟨h, ?_⟩
  rw [h]
  simp [commActions, Event.isComm]

/-- Witness for C4: member 2 of a group of 4. -/
theorem collect_nonroot_actions_witness :
    (2 : Int) ≠ 0 ∧
    (exec (Runtime.ok 2 4 fun _ => "") mpi_hello_2.main).trace =
      [Event.print "(Process 2) Sending message: \"Hello from process 2 of 4!\" to process 0.\n",
       Event.send 0 0 100 "Hello from process 2 of 4!",
       Event.finalize] :=
  ⟨by decide, (collect_nonroot_actions 2 4 (fun _ => "") (by decide)).1.trans (by decide)⟩

/-- The root's loop of `mpi_hello_3.c`, entered at `i` with `m` iterations
to go, performs `m` rounds and then runs the code after the loop. -/
theorem execFrom_rootLoop_exchange (rt : Runtime) (size : Int) (k : Prog) :
    ∀ (m : Nat) (i : Int) (n : Nat), (size - i).toNat = m →
      execFrom rt (mpi_hello_3.rootLoop size i k) n =
        Outcome.afterAll
          ((List.range m).flatMap fun j => exchangeRound (i + j) (rt.inbox (n + j)))
          (execFrom rt k (n + m)) := by
  intro m
  induction m with
  | zero =>
    intro i n h
    have hi : ¬ i < size := by omega
    rw [mpi_hello_3.rootLoop, if_neg hi]
    simp [Outcome.afterAll]
  | succ m ih =>
    intro i n h
    have hi : i < size := by omega
    rw [mpi_hello_3.rootLoop, if_pos hi]
    simp only [execFrom]
    rw [ih (i + 1) (n + 1) (by omega), range_succ_flatMap]
    have e1 : n + 1 + m = n + (m + 1) := by omega
    have e2 : ∀ j : Nat, i + 1 + (j : Int) = i + ((j + 1 : Nat) : Int) := by
      intro j; push_cast; ring
    have e3 : ∀ j : Nat, n + 1 + j = n + (j + 1) := by intro j; omega
    simp only [e1, e2, e3]
    simp [exchangeRound, Outcome.afterAll, Outcome.after]

theorem exec_main3_root (size : Int) (inbox : Nat → String) :
    exec (Runtime.ok 0 size inbox) mpi_hello_3.main =
      Outcome.afterAll
        ((List.range (size - 1).toNat).flatMap fun j => exchangeRound (j + 1) (inbox j))
        ⟨[.finalize], 0⟩ := by
  have h := execFrom_rootLoop_exchange (Runtime.ok 0 size inbox) size
    (.mpiFinalize (.ret 0)) (size - 1).toNat 1 0 rfl
  simp only [exec, mpi_hello_3.main, execFrom, Runtime.ok] at h ⊢
  simp only [bne_self_eq_false, Bool.false_eq_true, if_false]
  rw [h]
  simp [Outcome.after, add_comm]

theorem commActions_exchange_rounds (inbox : Nat → String) (m : Nat) :
    commActions ((List.range m).flatMap fun j => exchangeRound (j + 1) (inbox j)) =
      (List.range m).flatMap fun (j : Nat) =>
        [Event.recv ((j : Int) + 1) 0 100 (inbox j),
         Event.send ((j : Int) + 1) 0 100
          ("Acknowledgment from process 0 to process " ++ fmtD ((j : Int) + 1))] := by
  induction m with
  | zero => rfl
  | succ m ih =>
    unfold commActions at ih ⊢
    rw [List.range_succ, List.flatMap_append, List.filter_append, ih, List.flatMap_append]
    simp [exchangeRound, Event.isComm, List.flatMap]

theorem sendsOf_exchange_rounds (inbox : Nat → String) (m : Nat) :
    sendsOf ((List.range m).flatMap fun j => exchangeRound (j + 1) (inbox j)) =
      (List.range m).map fun (j : Nat) =>
        Event.send ((j : Int) + 1) 0 100
          ("Acknowledgment from process 0 to process " ++ fmtD ((j : Int) + 1)) := by
  induction m with
  | zero => rfl
  | succ m ih =>
    unfold sendsOf at ih ⊢
    rw [List.range_succ, List.flatMap_append, List.filter_append, ih, List.map_append]
    simp [exchangeRound, Event.isSend, List.flatMap]

/-- C2. Exchange mode, root member of `mpi_hello_3.c` (rank 0): for every
group size the communication actions are, for `i = 1, ..., size-1` in this
order, the receive from `i` immediately followed by the send to the same `i`,
so the receive for `i+1` comes after the acknowledgment to `i`.  For size 4
they are: receive from 1, ack to 1, receive from 2, ack to 2, receive from 3,
ack to 3. -/
theorem exchange_root_actions (size : Int) (inbox : Nat → String) :
    commActions (exec (Runtime.ok 0 size inbox) mpi_hello_3.main).trace =
        ((List.range (size - 1).toNat).flatMap fun (j : Nat) =>
          [Event.recv ((j : Int) + 1) 0 100 (inbox j),
           Event.send ((j : Int) + 1) 0 100
            ("Acknowledgment from process 0 to process " ++ fmtD ((j : Int) + 1))])
      ∧ commActions (exec (Runtime.ok 0 4 inbox) mpi_hello_3.main).trace =
        [Event.recv 1 0 100 (inbox 0),
         Event.send 1 0 100 "Acknowledgment from process 0 to process 1",
         Event.recv 2 0 100 (inbox 1),
         Event.send 2 0 100 "Acknowledgment from process 0 to process 2",
         Event.recv 3 0 100 (inbox 2),
         Event.send 3 0 100 "Acknowledgment from process 0 to process 3"] := by
  have key : ∀ s : Int, commActions (exec (Runtime.ok 0 s inbox) mpi_hello_3.main).trace =
      ((List.range (s - 1).toNat).flatMap fun (j : Nat) =>
        [Event.recv ((j : Int) + 1) 0 100 (inbox j),
         Event.send ((j : Int) + 1) 0 100
          ("Acknowledgment from process 0 to process " ++ fmtD ((j : Int) + 1))]) := by
    intro s
    have hc := commActions_exchange_rounds inbox (s - 1).toNat
    rw [exec_main3_root]
    simp only [Outcome.afterAll]
    unfold commActions at hc ⊢
    rw [List.filter_append, hc]
    simp [Event.isComm]
  refine ⟨key size, ?_⟩
  rw [key 4]
  have h3 : ((4 : Int) - 1).toNat = 3 := by decide
  rw [h3]
  have f1 : fmtD 1 = "1" := by decide
  have f2 : fmtD 2 = "2" := by decide
  have f3 : fmtD 3 = "3" := by decide
  have s1 : "Acknowledgment from process 0 to process " ++ "1"
      = "Acknowledgment from process 0 to process 1" := by decide
  have s2 : "Acknowledgment from process 0 to process " ++ "2"
      = "Acknowledgment from process 0 to process 2" := by decide
  have s3 : "Acknowledgment from process 0 to process " ++ "3"
      = "Acknowledgment from process 0 to process 3" := by decide
  simp [List.range_succ, List.flatMap, f1, f2, f3, s1, s2, s3]

theorem exec_main3_nonroot (k size : Int) (inbox : Nat → String) (hk : k ≠ 0) :
    (exec (Runtime.ok k size inbox) mpi_hello_3.main).trace =
      [Event.print ("(Process " ++ fmtD k ++ ") Sending message: \""
          ++ ("Hello from process " ++ fmtD k ++ " of " ++ fmtD size ++ "!")
          ++ "\" to process 0.\n"),
       Event.send 0 0 100 ("Hello from process " ++ fmtD k ++ " of " ++ fmtD size ++ "!"),
       Event.recv 0 0 100 (inbox 0),
       Event.print ("(Process " ++ fmtD k ++ ") Received response: \"" ++ inbox 0
          ++ "\" from process 0.\n"),
       Event.finalize] := by
  have hb : (k != 0) = true := by simpa using hk
  simp only [exec, mpi_hello_3.main, execFrom, Runtime.ok, hb, if_true, Outcome.after]

/-- C3. Exchange mode, non-root member of `mpi_hello_3.c` (rank `k ≠ 0`): the
member reports, sends "Hello from process k of size!" to rank 0 with tag 0,
then receives from sender 0 with tag 0, reports the payload it received and
tears down; the send followed by the receive are its only communication
actions. -/
theorem exchange_nonroot_actions (k size : Int) (inbox : Nat → String) (hk : k ≠ 0) :
    (exec (Runtime.ok k size inbox) mpi_hello_3.main).trace =
        [Event.print ("(Process " ++ fmtD k ++ ") Sending message: \""
            ++ ("Hello from process " ++ fmtD k ++ " of " ++ fmtD size ++ "!")
            ++ "\" to process 0.\n"),
         Event.send 0 0 100 ("Hello from process " ++ fmtD k ++ " of " ++ fmtD size ++ "!"),
         Event.recv 0 0 100 (inbox 0),
         Event.print ("(Process " ++ fmtD k ++ ") Received response: \"" ++ inbox 0
            ++ "\" from process 0.\n"),
         Event.finalize]
      ∧ commActions (exec (Runtime.ok k size inbox) mpi_hello_3.main).trace =
        [Event.send 0 0 100 ("Hello from process " ++ fmtD k ++ " of " ++ fmtD size ++ "!"),
         Event.recv 0 0 100 (inbox 0)] := by
  have h := exec_main3_nonroot k size inbox hk
  refine ⟨h, ?_⟩
  rw [h]
  simp [commActions, Event.isComm]

/-- Witness for C3: member 3 of a group of 4 that is handed the root's
acknowledgment. -/
theorem exchange_nonroot_actions_witness :
    (3 : Int) ≠ 0 ∧
    (exec (Runtime.ok 3 4 fun _ => "Acknowledgment from process 0 to process 3")
        mpi_hello_3.main).trace =
      [Event.print "(Process 3) Sending message: \"Hello from process 3 of 4!\" to process 0.\n",
       Event.send 0 0 100 "Hello from process 3 of 4!",
       Event.recv 0 0 100 "Acknowledgment from process 0 to process 3",
       Event.print ("(Process 3) Received response: \"Acknowledgment from process 0 to process 3\""
          ++ " from process 0.\n"),
       Event.finalize] :=
  ⟨by decide,
   (exchange_nonroot_actions 3 4 (fun _ => "Acknowledgment from process 0 to process 3")
      (by decide)).1.trans (by decide)⟩

/-- C5. Exchange mode, acknowledgment content: for every group size the sends
of the root of `mpi_hello_3.c` are, for `i = 1, ..., size-1`, the send to `i`
of "Acknowledgment from process 0 to process i"; two runs that differ only
in the messages the root receives have the same sends. -/
theorem exchange_ack_content (size : Int) (inbox inbox' : Nat → String) :
    sendsOf (exec (Runtime.ok 0 size inbox) mpi_hello_3.main).trace =
        ((List.range (size - 1).toNat).map fun (j : Nat) =>
          Event.send ((j : Int) + 1) 0 100
            ("Acknowledgment from process 0 to process " ++ fmtD ((j : Int) + 1)))
      ∧ sendsOf (exec (Runtime.ok 0 size inbox) mpi_hello_3.main).trace =
        sendsOf (exec (Runtime.ok 0 size inbox') mpi_hello_3.main).trace := by
  have key : ∀ ib : Nat → String,
      sendsOf (exec (Runtime.ok 0 size ib) mpi_hello_3.main).trace =
        ((List.range (size - 1).toNat).map fun (j : Nat) =>
          Event.send ((j : Int) + 1) 0 100
            ("Acknowledgment from process 0 to process " ++ fmtD ((j : Int) + 1))) := by
    intro ib
    have hc := sendsOf_exchange_rounds ib (size - 1).toNat
    rw [exec_main3_root]
    simp only [Outcome.afterAll]
    unfold sendsOf at hc ⊢
    rw [List.filter_append, hc]
    simp [Event.isSend]
  exact ⟨key inbox, (key inbox).trans (key inbox').symm⟩

/-- C7. Boundary `size == 1`: for the root (rank 0) the loop of
`mpi_hello_2.c` and the loop of `mpi_hello_3.c` execute no iteration, and
each program's run consists of the teardown alone, with no send and no
receive, and returns exit status 0. -/
theorem size_one_no_messaging (inbox : Nat → String) (k : Prog) :
    mpi_hello_2.rootLoop 0 1 1 k = k
      ∧ mpi_hello_3.rootLoop 1 1 k = k
      ∧ exec (Runtime.ok 0 1 inbox) mpi_hello_2.main = ⟨[Event.finalize], 0⟩
      ∧ exec (Runtime.ok 0 1 inbox) mpi_hello_3.main = ⟨[Event.finalize], 0⟩
      ∧ commActions (exec (Runtime.ok 0 1 inbox) mpi_hello_2.main).trace = []
      ∧ commActions (exec (Runtime.ok 0 1 inbox) mpi_hello_3.main).trace = [] := by
  have h2 : ∀ q : Prog, mpi_hello_2.rootLoop 0 1 1 q = q := by
    intro q; rw [mpi_hello_2.rootLoop, if_neg (by decide)]
  have h3 : ∀ q : Prog, mpi_hello_3.rootLoop 1 1 q = q := by
    intro q; rw [mpi_hello_3.rootLoop, if_neg (by decide)]
  have e2 : exec (Runtime.ok 0 1 inbox) mpi_hello_2.main = ⟨[Event.finalize], 0⟩ := by
    simp [exec, mpi_hello_2.main, execFrom, Runtime.ok, h2, Outcome.after]
  have e3 : exec (Runtime.ok 0 1 inbox) mpi_hello_3.main = ⟨[Event.finalize], 0⟩ := by
    simp [exec, mpi_hello_3.main, execFrom, Runtime.ok, h3, Outcome.after]
  refine ⟨h2 k, h3 k, e2, e3, ?_, ?_⟩
  · rw [e2]; decide
  · rw [e3]; decide

theorem fmtD_length_le (n : Int) (h0 : 0 ≤ n) (h1 : n < 2 ^ 31) : (fmtD n).length ≤ 10 := by
  obtain ⟨m, rfl⟩ := Int.eq_ofNat_of_zero_le h0
  have hm : m < 10 ^ 10 := by
    have : (m : Int) < 2 ^ 31 := h1
    norm_num at this ⊢
    omega
  exact Nat.repr_length m 10 (by decide) hm

theorem greeting_length_lt (r size : Int) (h0 : 0 ≤ r) (h1 : r < size) (h2 : size < 2 ^ 31) :
    ("Hello from process " ++ fmtD r ++ " of " ++ fmtD size ++ "!").length < 100 := by
  have hr := fmtD_length_le r h0 (by omega)
  have hs := fmtD_length_le size (by omega) h2
  have a : "Hello from process ".length = 19 := by decide
  have b : " of ".length = 4 := by decide
  have c : "!".length = 1 := by decide
  simp only [String.length_append, a, b, c]
  omega

theorem ack_length_lt (r : Int) (h0 : 0 ≤ r) (h1 : r < 2 ^ 31) :
    ("Acknowledgment from process 0 to process " ++ fmtD r).length < 100 := by
  have hr := fmtD_length_le r h0 h1
  have a : "Acknowledgment from process 0 to process ".length = 41 := by decide
  simp only [String.length_append, a]
  omega

theorem mem_exchange_rounds (inbox : Nat → String) (m : Nat) (e : Event)
    (he : e ∈ (List.range m).flatMap fun j => exchangeRound (j + 1) (inbox j)) :
    ∃ j : Nat, j < m ∧ e ∈ exchangeRound (j + 1) (inbox j) := by
  rw [List.mem_flatMap] at he
  obtain ⟨j, hj, hje⟩ := he
  exact ⟨j, List.mem_range.mp hj, hje⟩

/-- C10. Payloads fit the 100-byte frame: for `0 ≤ identity < size` with
`size` in the range of a 32-bit signed `int`, the greeting and the
acknowledgment texts are shorter than 100 characters, and in the run of
`mpi_hello_2.c` or `mpi_hello_3.c` by that member every buffer handed to
`MPI_Send` holds a text shorter than the count of characters sent. -/
theorem payloads_fit_frame (identity size : Int)
    (h0 : 0 ≤ identity) (h1 : identity < size) (h2 : size < 2 ^ 31) :
    ("Hello from process " ++ fmtD identity ++ " of " ++ fmtD size ++ "!").length < 100
      ∧ ("Acknowledgment from process 0 to process " ++ fmtD identity).length < 100
      ∧ ∀ (inbox : Nat → String) (dest tag : Int) (count : Nat) (body : String),
          (Event.send dest tag count body ∈
              (exec (Runtime.ok identity size inbox) mpi_hello_2.main).trace
            ∨ Event.send dest tag count body ∈
              (exec (Runtime.ok identity size inbox) mpi_hello_3.main).trace) →
          body.length < count := by
  refine ⟨greeting_length_lt identity size h0 h1 h2, ack_length_lt identity h0 (by omega), ?_⟩
  intro inbox dest tag count body h
  by_cases hk : identity = 0
  · subst hk
    rcases h with h | h
    · rw [exec_main2_root] at h
      simp only [Outcome.afterAll, List.mem_append, List.mem_singleton, List.mem_flatMap] at h
      rcases h with ⟨j, -, hje⟩ | h
      · simp [collectRound] at hje
      · cases h
    · rw [exec_main3_root] at h
      simp only [Outcome.afterAll, List.mem_append, List.mem_singleton] at h
      rcases h with h | h
      · obtain ⟨j, hj, hje⟩ := mem_exchange_rounds inbox _ _ h
        simp [exchangeRound] at hje
        obtain ⟨-, -, rfl, rfl⟩ := hje
        have hj' : (j : Int) + 1 < size := by omega
        exact ack_length_lt ((j : Int) + 1) (by omega) (by omega)
      · cases h
  · have g := greeting_length_lt identity size h0 h1 h2
    rcases h with h | h
    · rw [exec_main2_nonroot identity size inbox hk] at h
      simp at h
      obtain ⟨-, -, rfl, rfl⟩ := h
      exact g
    · rw [exec_main3_nonroot identity size inbox hk] at h
      simp at h
      obtain ⟨-, -, rfl, rfl⟩ := h
      exact g

/-- Witness for C10: member 2147483646 of a group of 2147483647. -/
theorem payloads_fit_frame_witness :
    ("Hello from process " ++ fmtD 2147483646 ++ " of " ++ fmtD 2147483647 ++ "!").length < 100
      ∧ ("Acknowledgment from process 0 to process " ++ fmtD 2147483646).length < 100 :=
  ⟨(payloads_fit_frame 2147483646 2147483647 (by decide) (by decide) (by decide)).1,
   (payloads_fit_frame 2147483646 2147483647 (by decide) (by decide) (by decide)).2.1⟩

theorem triples_collect_rounds (r : Int) (inbox : Nat → String) (m : Nat) :
    sendTriples 0 ((List.range m).flatMap fun j => collectRound r (j + 1) (inbox j)) = []
      ∧ recvTriples 0 ((List.range m).flatMap fun j => collectRound r (j + 1) (inbox j)) =
        (List.range m).map fun (j : Nat) => ((j : Int) + 1, (0 : Int), (0 : Int)) := by
  induction m with
  | zero => exact ⟨rfl, rfl⟩
  | succ m ih =>
    unfold sendTriples recvTriples at ih ⊢
    rw [List.range_succ, List.flatMap_append, List.filterMap_append, List.filterMap_append,
      ih.1, ih.2, List.map_append]
    simp [collectRound, List.flatMap]

theorem triples_exchange_rounds (inbox : Nat → String) (m : Nat) :
    sendTriples 0 ((List.range m).flatMap fun j => exchangeRound (j + 1) (inbox j)) =
        ((List.range m).map fun (j : Nat) => ((0 : Int), (j : Int) + 1, (0 : Int)))
      ∧ recvTriples 0 ((List.range m).flatMap fun j => exchangeRound (j + 1) (inbox j)) =
        (List.range m).map fun (j : Nat) => ((j : Int) + 1, (0 : Int), (0 : Int)) := by
  induction m with
  | zero => exact ⟨rfl, rfl⟩
  | succ m ih =>
    unfold sendTriples recvTriples at ih ⊢
    rw [List.range_succ, List.flatMap_append, List.filterMap_append, List.filterMap_append,
      ih.1, ih.2, List.map_append, List.map_append]
    simp [exchangeRound, List.flatMap]

theorem flatMap_singleton_eq_map {α β : Type} (l : List α) (f : α → β) :
    (l.flatMap fun a => [f a]) = l.map f := by
  induction l with
  | nil => rfl
  | cons a l ih => simp [List.flatMap_cons, ih]

theorem flatMap_nil_eq_nil {α β : Type} (l : List α) :
    (l.flatMap fun _ => ([] : List β)) = [] := by
  induction l with
  | nil => rfl
  | cons a l ih => simp [List.flatMap_cons, ih]

theorem groupTriples_collect (size : Int) (inbox : Nat → Nat → String) :
    groupSends mpi_hello_2.main size inbox =
        ((List.range (size - 1).toNat).map fun (j : Nat) => ((j : Int) + 1, (0 : Int), (0 : Int)))
      ∧ groupRecvs mpi_hello_2.main size inbox =
        (List.range (size - 1).toNat).map fun (j : Nat) => ((j : Int) + 1, (0 : Int), (0 : Int)) := by
  unfold groupSends groupRecvs
  rcases hn : size.toNat with _ | n
  · have h0 : (size - 1).toNat = 0 := by omega
    rw [h0]; exact ⟨rfl, rfl⟩
  · have h0 : (size - 1).toNat = n := by omega
    have hnr : ∀ j : Nat, (exec (Runtime.ok ((j + 1 : Nat) : Int) size (inbox (j + 1)))
        mpi_hello_2.main).trace = _ :=
      fun j => exec_main2_nonroot ((j + 1 : Nat) : Int) size (inbox (j + 1)) (by omega)
    have hr := exec_main2_root size (inbox 0)
    have ht := triples_collect_rounds 0 (inbox 0) n
    rw [h0] at hr ⊢
    rw [range_succ_flatMap, range_succ_flatMap]
    simp only [hnr, Nat.cast_zero, hr, Outcome.afterAll]
    simp only [sendTriples, recvTriples, List.filterMap_append] at ht ⊢
    rw [ht.1, ht.2]
    simp [flatMap_singleton_eq_map, flatMap_nil_eq_nil]

theorem groupTriples_exchange (size : Int) (inbox : Nat → Nat → String) :
    groupSends mpi_hello_3.main size inbox =
        ((List.range (size - 1).toNat).map fun (j : Nat) => ((0 : Int), (j : Int) + 1, (0 : Int)))
          ++ ((List.range (size - 1).toNat).map fun (j : Nat) =>
            ((j : Int) + 1, (0 : Int), (0 : Int)))
      ∧ groupRecvs mpi_hello_3.main size inbox =
        ((List.range (size - 1).toNat).map fun (j : Nat) => ((j : Int) + 1, (0 : Int), (0 : Int)))
          ++ ((List.range (size - 1).toNat).map fun (j : Nat) =>
            ((0 : Int), (j : Int) + 1, (0 : Int))) := by
  unfold groupSends groupRecvs
  rcases hn : size.toNat with _ | n
  · have h0 : (size - 1).toNat = 0 := by omega
    rw [h0]; exact ⟨rfl, rfl⟩
  · have h0 : (size - 1).toNat = n := by omega
    have hnr : ∀ j : Nat, (exec (Runtime.ok ((j + 1 : Nat) : Int) size (inbox (j + 1)))
        mpi_hello_3.main).trace = _ :=
      fun j => exec_main3_nonroot ((j + 1 : Nat) : Int) size (inbox (j + 1)) (by omega)
    have hr := exec_main3_root size (inbox 0)
    have ht := triples_exchange_rounds (inbox 0) n
    rw [h0] at hr ⊢
    rw [range_succ_flatMap, range_succ_flatMap]
    simp only [hnr, Nat.cast_zero, hr, Outcome.afterAll]
    simp only [sendTriples, recvTriples, List.filterMap_append] at ht ⊢
    rw [ht.1, ht.2]
    simp [flatMap_singleton_eq_map, flatMap_nil_eq_nil]

/-- C9. Send/receive matching across the group: for every group size, over
the runs of all members `0, ..., size-1`, the multiset of `(sender, receiver,
tag)` triples of the sends equals the multiset of `(expected sender,
receiver, tag)` triples of the receives.  For `mpi_hello_2.c` it is
`(i, 0, 0)` for `1 ≤ i < size`, `size-1` messages; for `mpi_hello_3.c` it is
`(i, 0, 0)` and `(0, i, 0)` for `1 ≤ i < size`, `2*(size-1)` messages. -/
theorem group_sends_match_receives (size : Int) (inbox : Nat → Nat → String) :
    ((groupSends mpi_hello_2.main size inbox : Multiset (Int × Int × Int))
        = (groupRecvs mpi_hello_2.main size inbox : Multiset (Int × Int × Int)))
      ∧ (groupSends mpi_hello_2.main size inbox : Multiset (Int × Int × Int))
        = (Multiset.range (size - 1).toNat).map
            (fun (j : Nat) => ((j : Int) + 1, (0 : Int), (0 : Int)))
      ∧ (groupSends mpi_hello_2.main size inbox).length = (size - 1).toNat
      ∧ ((groupSends mpi_hello_3.main size inbox : Multiset (Int × Int × Int))
        = (groupRecvs mpi_hello_3.main size inbox : Multiset (Int × Int × Int)))
      ∧ (groupSends mpi_hello_3.main size inbox : Multiset (Int × Int × Int))
        = (Multiset.range (size - 1).toNat).map
              (fun (j : Nat) => ((j : Int) + 1, (0 : Int), (0 : Int)))
          + (Multiset.range (size - 1).toNat).map
              (fun (j : Nat) => ((0 : Int), (j : Int) + 1, (0 : Int)))
      ∧ (groupSends mpi_hello_3.main size inbox).length = 2 * (size - 1).toNat := by
  obtain ⟨c1, c2⟩ := groupTriples_collect size inbox
  obtain ⟨e1, e2⟩ := groupTriples_exchange size inbox
  refine ⟨by rw [c1, c2], by rw [c1]; rfl, by rw [c1]; simp, ?_, ?_, by rw [e1]; simp; omega⟩
  · rw [e1, e2, ← Multiset.coe_add, ← Multiset.coe_add, add_comm]
  · rw [e1, ← Multiset.coe_add, add_comm]; rfl

theorem exec_init_failure (f : InitFailure) (rank size : Int) (inbox : Nat → String)
    (p : Prog) (hp : p ∈ programs) :
    exec ⟨some f, rank, size, inbox⟩ p = ⟨[], f.status⟩ := by
  simp only [programs, List.mem_cons, List.mem_singleton, List.not_mem_nil, or_false] at hp
  rcases hp with rfl | rfl | rfl <;> rfl

theorem exec_ok_completes (rank size : Int) (inbox : Nat → String)
    (p : Prog) (hp : p ∈ programs) :
    (exec (Runtime.ok rank size inbox) p).trace.getLast? = some Event.finalize
      ∧ (exec (Runtime.ok rank size inbox) p).exit = 0 := by
  simp only [programs, List.mem_cons, List.mem_singleton, List.not_mem_nil, or_false] at hp
  rcases hp with rfl | rfl | rfl
  · exact ⟨rfl, rfl⟩
  · by_cases hk : rank = 0
    · subst hk
      rw [exec_main2_root]
      simp [Outcome.afterAll]
    · have hb : (rank != 0) = true := by simpa using hk
      simp [exec, mpi_hello_2.main, execFrom, Runtime.ok, hb, Outcome.after]
  · by_cases hk : rank = 0
    · subst hk
      rw [exec_main3_root]
      simp [Outcome.afterAll]
    · have hb : (rank != 0) = true := by simpa using hk
      simp [exec, mpi_hello_3.main, execFrom, Runtime.ok, hb, Outcome.after]

/-- C8. Initialization failure is fatal: in each of the three programs
`MPI_Init` is the first action, so when it fails the member's run has no
event at all (no send, no receive, no report) and ends with the failure's
non-zero status; a run has exit status 0 exactly when `MPI_Init` succeeded,
and then it ran to the teardown. -/
theorem init_failure_fatal (rt : Runtime) (p : Prog) (hp : p ∈ programs) :
    (∀ f : InitFailure, rt.initFailure = some f →
        exec rt p = ⟨[], f.status⟩ ∧ (exec rt p).exit ≠ 0)
      ∧ ((exec rt p).exit = 0 ↔ rt.initFailure = none)
      ∧ ((exec rt p).exit = 0 → (exec rt p).trace.getLast? = some Event.finalize) := by
  obtain ⟨init, rank, size, inbox⟩ := rt
  cases init with
  | some f =>
    have h := exec_init_failure f rank size inbox p hp
    refine ⟨?_, ?_, ?_⟩
    · intro g hg
      cases hg
      exact ⟨h, by rw [h]; exact f.nonzero⟩
    · rw [h]; simp [f.nonzero]
    · rw [h]; intro h0; exact absurd h0 f.nonzero
  | none =>
    have h := exec_ok_completes rank size inbox p hp
    refine ⟨?_, ?_, ?_⟩
    · intro g hg; cases hg
    · exact ⟨fun _ => rfl, fun _ => h.2⟩
    · exact fun _ => h.1

/-- Witness for C8: member 1 of a group of 3 running `mpi_hello_3.c` whose
`MPI_Init` fails with status 1. -/
theorem init_failure_fatal_witness :
    mpi_hello_3.main ∈ programs ∧
    exec ⟨some ⟨1, by decide⟩, 1, 3, fun _ => ""⟩ mpi_hello_3.main = ⟨[], 1⟩ :=
  ⟨by simp [programs],
   ((init_failure_fatal ⟨some ⟨1, by decide⟩, 1, 3, fun _ => ""⟩ mpi_hello_3.main
      (by simp [programs])).1 ⟨1, by decide⟩ rfl).1⟩

/-! ## The group of `mpi_hello_3.c` -/

theorem Member.advance_prog (size rank : Int) (msg : String) (m : Member) :
    (m.advance size rank msg).prog = m.prog.next size rank msg := by
  obtain ⟨p, t⟩ := m
  cases p <;> rfl

theorem Member.advance_local (size rank : Int) (msg msg' : String) (m : Member)
    (h : m.prog.isLocal = true) : m.advance size rank msg = m.advance size rank msg' := by
  obtain ⟨p, t⟩ := m
  cases p <;> first | rfl | simp [Prog.isLocal] at h

theorem step_local (c : Config) (r : Int) (msg : String)
    (h : (c.member r).prog.isLocal = true) :
    stepBuffered c r = some (c.setMember r ((c.member r).advance c.size r msg)) := by
  rw [Member.advance_local c.size r msg "" _ h]
  unfold stepBuffered
  generalize c.member r = m at h ⊢
  obtain ⟨p, t⟩ := m
  cases p <;> first | rfl | simp [Prog.isLocal] at h

theorem step_send (c : Config) (r : Int) (msg : String) (buf : String) (count : Nat)
    (dest tag : Int) (k : Prog) (h : (c.member r).prog = .mpiSend buf count dest tag k) :
    stepBuffered c r = some ((c.setMember r ((c.member r).advance c.size r msg)).setChan r dest
      (c.chan r dest ++ [⟨tag, buf⟩])) := by
  unfold stepBuffered
  generalize c.member r = m at h ⊢
  obtain ⟨p, t⟩ := m
  simp only at h
  subst h
  rfl

theorem step_recv (c : Config) (r : Int) (count : Nat) (source tag : Int) (k : String → Prog)
    (h : (c.member r).prog = .mpiRecv count source tag k) :
    stepBuffered c r =
      match takeFirst tag (c.chan source r) with
      | some (e, rest) =>
          some ((c.setMember r ((c.member r).advance c.size r e.body)).setChan source r rest)
      | none => none := by
  unfold stepBuffered
  generalize c.member r = m at h ⊢
  obtain ⟨p, t⟩ := m
  simp only at h
  subst h
  rfl

theorem step_ret (c : Config) (r : Int) (status : Int)
    (h : (c.member r).prog = .ret status) : stepBuffered c r = none := by
  unfold stepBuffered
  generalize c.member r = m at h ⊢
  obtain ⟨p, t⟩ := m
  simp only at h
  subst h
  rfl

/-- The calls of a non-root member of `mpi_hello_3.c`, by position. -/
theorem nonRoot_heads (size k : Int) (hk : k ≠ 0) :
    (∀ p : Nat, p < 4 → (nonRootMember size k p).prog.isLocal = true)
      ∧ (∃ K, (nonRootMember size k 4).prog = .mpiSend (greeting k size) 100 0 0 K)
      ∧ (∃ K, (nonRootMember size k 5).prog = .mpiRecv 100 0 0 K)
      ∧ (nonRootMember size k 6).prog.isLocal = true
      ∧ (nonRootMember size k 7).prog.isLocal = true
      ∧ (nonRootMember size k 8).prog = .ret 0 := by
  have hb : (k != 0) = true := by simpa using hk
  refine ⟨?_, ?_, ?_, ?_, ?_, ?_⟩
  · intro p hp
    interval_cases p <;>
      simp [nonRootMember, Member.advance, mpi_hello_3.main, hk, Prog.isLocal]
  · refine ⟨(nonRootMember size k 4).prog.next size k "", ?_⟩
    simp [nonRootMember, Member.advance, mpi_hello_3.main, hk, greeting, Prog.next]
  · refine ⟨fun msg => (nonRootMember size k 5).prog.next size k msg, ?_⟩
    simp [nonRootMember, Member.advance, mpi_hello_3.main, hk, Prog.next]
  · simp [nonRootMember, Member.advance, mpi_hello_3.main, hk, Prog.isLocal]
  · simp [nonRootMember, Member.advance, mpi_hello_3.main, hk, Prog.isLocal]
  · simp [nonRootMember, Member.advance, mpi_hello_3.main, hk]

/-- The events of a non-root member of `mpi_hello_3.c`, by position. -/
theorem nonRoot_traces (size k : Int) (hk : k ≠ 0) :
    (∀ p : Nat, p ≤ 5 → recvsOf (nonRootMember size k p).trace = [])
      ∧ (∀ p : Nat, 6 ≤ p → p ≤ 8 →
          recvsOf (nonRootMember size k p).trace = [Event.recv 0 0 100 (ackText k)])
      ∧ (nonRootMember size k 8).trace =
          [Event.print ("(Process " ++ fmtD k ++ ") Sending message: \"" ++ greeting k size
              ++ "\" to process 0.\n"),
           Event.send 0 0 100 (greeting k size),
           Event.recv 0 0 100 (ackText k),
           Event.print ("(Process " ++ fmtD k ++ ") Received response: \"" ++ ackText k
              ++ "\" from process 0.\n"),
           Event.finalize] := by
  have hb : (k != 0) = true := by simpa using hk
  refine ⟨?_, ?_, ?_⟩
  · intro p hp
    interval_cases p <;>
      simp [nonRootMember, Member.advance, mpi_hello_3.main, hk, recvsOf]
  · intro p h6 h8
    interval_cases p <;>
      simp [nonRootMember, Member.advance, mpi_hello_3.main, hk, recvsOf]
  · simp [nonRootMember, Member.advance, mpi_hello_3.main, hk, greeting]

theorem rootMember_succ_prog (size : Int) (j : Nat) :
    (rootMember size (j + 1)).prog =
      (rootMember size j).prog.next size 0 (greeting (((j + 1) / 4 : Nat) : Int) size) := by
  rw [rootMember, Member.advance_prog]

/-- At call `4q+3` the root is at the head of its loop with `i = q+1`. -/
theorem rootMember_loop (size : Int) :
    ∀ q : Nat, q ≤ (size - 1).toNat →
      (rootMember size (4 * q + 3)).prog =
        mpi_hello_3.rootLoop size (q + 1) (.mpiFinalize (.ret 0)) := by
  intro q
  induction q with
  | zero =>
    intro _
    simp [rootMember, Member.advance, mpi_hello_3.main]
  | succ q ih =>
    intro hq
    have hlt : ((q : Int) + 1) < size := by omega
    have e : 4 * (q + 1) + 3 = (4 * q + 3) + 1 + 1 + 1 + 1 := by ring
    rw [e, rootMember_succ_prog, rootMember_succ_prog, rootMember_succ_prog,
      rootMember_succ_prog, ih (by omega), mpi_hello_3.rootLoop, if_pos hlt]
    simp [Prog.next]

/-- The calls of the root of `mpi_hello_3.c`, by position. -/
theorem root_heads (size : Int) :
    (∀ j : Nat, j < 3 → (rootMember size j).prog.isLocal = true)
      ∧ (∀ q : Nat, q < (size - 1).toNat →
          (∃ K, (rootMember size (4 * q + 3)).prog = .mpiRecv 100 ((q : Int) + 1) 0 K)
          ∧ (rootMember size (4 * q + 4)).prog.isLocal = true
          ∧ (rootMember size (4 * q + 5)).prog.isLocal = true
          ∧ (∃ K, (rootMember size (4 * q + 6)).prog =
              .mpiSend (ackText ((q : Int) + 1)) 100 ((q : Int) + 1) 0 K))
      ∧ (rootMember size (4 * (size - 1).toNat + 3)).prog.isLocal = true
      ∧ (rootMember size (4 * (size - 1).toNat + 4)).prog = .ret 0 := by
  refine ⟨?_, ?_, ?_, ?_⟩
  · intro j hj
    interval_cases j <;> simp [rootMember, Member.advance, mpi_hello_3.main, Prog.isLocal]
  · intro q hq
    have hlt : ((q : Int) + 1) < size := by omega
    have h0 := rootMember_loop size q (by omega)
    rw [mpi_hello_3.rootLoop, if_pos hlt] at h0
    have h1 := rootMember_succ_prog size (4 * q + 3)
    have h2 := rootMember_succ_prog size (4 * q + 3 + 1)
    have h3 := rootMember_succ_prog size (4 * q + 3 + 1 + 1)
    rw [h0] at h1
    simp only [Prog.next] at h1
    rw [h1] at h2
    simp only [Prog.next] at h2
    rw [h2] at h3
    simp only [Prog.next] at h3
    exact ⟨⟨_, h0⟩, by rw [h1]; rfl, by rw [h2]; rfl, ⟨_, h3⟩⟩
  · have h0 := rootMember_loop size (size - 1).toNat le_rfl
    have hge : ¬ (((size - 1).toNat : Int) + 1) < size := by omega
    rw [mpi_hello_3.rootLoop, if_neg hge] at h0
    rw [h0]; rfl
  · have h0 := rootMember_loop size (size - 1).toNat le_rfl
    have hge : ¬ (((size - 1).toNat : Int) + 1) < size := by omega
    rw [mpi_hello_3.rootLoop, if_neg hge] at h0
    have h1 := rootMember_succ_prog size (4 * (size - 1).toNat + 3)
    rw [h0] at h1
    exact h1

theorem Config.setMember_member (c : Config) (r : Int) (m : Member) (x : Int) :
    (c.setMember r m).member x = if x = r then m else c.member x := rfl

theorem Config.setMember_chan (c : Config) (r : Int) (m : Member) :
    (c.setMember r m).chan = c.chan := rfl

theorem Config.setMember_size (c : Config) (r : Int) (m : Member) :
    (c.setMember r m).size = c.size := rfl

theorem Config.setChan_member (c : Config) (s d : Int) (q : List Envelope) :
    (c.setChan s d q).member = c.member := rfl

theorem Config.setChan_chan (c : Config) (s d : Int) (q : List Envelope) (a b : Int) :
    (c.setChan s d q).chan a b = if a = s ∧ b = d then q else c.chan a b := rfl

theorem Config.setChan_size (c : Config) (s d : Int) (q : List Envelope) :
    (c.setChan s d q).size = c.size := rfl

theorem sum_bump (size r : Int) (pc : Int → Nat) (h1 : 1 ≤ r) (h2 : r < size) :
    Finset.sum (Finset.Ico 1 size) (fun k => if k = r then pc r + 1 else pc k)
      = Finset.sum (Finset.Ico 1 size) pc + 1 := by
  have e : (fun k => if k = r then pc r + 1 else pc k)
      = fun k => pc k + (if k = r then 1 else 0) := by
    funext k
    by_cases h : k = r
    · subst h; simp
    · simp [h]
  rw [e, Finset.sum_add_distrib, Finset.sum_ite_eq' (Finset.Ico 1 size) r (fun _ => 1)]
  simp [Finset.mem_Ico, h1, h2]

/-- The start of the group satisfies the invariant. -/
theorem inv_init (size : Int) : Inv size 0 (Config.init mpi_hello_3.main size) := by
  refine ⟨rfl, 0, fun _ => 0, rfl, by omega, by simp, ?_, fun _ _ _ => rfl⟩
  intro k h1 h2
  show MemberInv size (Config.init mpi_hello_3.main size) 0 0 k
  refine ⟨rfl, by omega, ?_, ?_, ?_, ?_⟩
  · simp [Config.init]
  · have : ¬ (4 * k + 3 ≤ ((0 : Nat) : Int)) := by omega
    rw [if_neg (fun h => this h.1)]
    rfl
  · intro h; omega
  · intro h; omega

/-- A step of the root that touches no channel keeps the invariant. -/
theorem inv_root_local (size : Int) (L : Nat) (c : Config) (j : Nat) (pc : Int → Nat)
    (hsize : c.size = size) (hj : j + 1 ≤ 4 * (size - 1).toNat + 4)
    (hL : L = j + Finset.sum (Finset.Ico 1 size) pc)
    (hmem : ∀ k : Int, 1 ≤ k → k < size → MemberInv size c j (pc k) k)
    (hoth : ∀ a b : Int, (a = 0 ↔ b = 0) → c.chan a b = [])
    (hfree : ∀ k : Int, 1 ≤ k → k < size → ((j : Int) + 1 ≠ 4 * k ∧ (j : Int) + 1 ≠ 4 * k + 3)) :
    Inv size (L + 1) (c.setMember 0 (rootMember size (j + 1))) := by
  refine ⟨hsize, j + 1, pc, by simp [Config.setMember_member], hj, by omega, ?_, hoth⟩
  intro k h1 h2
  obtain ⟨m1, m2, m3, m4, m5, m6⟩ := hmem k h1 h2
  obtain ⟨f1, f2⟩ := hfree k h1 h2
  have hk0 : k ≠ 0 := by omega
  refine ⟨by simp [Config.setMember_member, hk0, m1], m2, ?_, ?_, ?_, ?_⟩
  · rw [Config.setMember_chan, m3]
    exact if_congr (by push_cast; omega) rfl rfl
  · rw [Config.setMember_chan, m4]
    exact if_congr (by push_cast; omega) rfl rfl
  · intro h; apply m5; push_cast at h; omega
  · intro h; have := m6 h; push_cast; omega

theorem takeFirst_single (tag : Int) (body : String) :
    takeFirst tag [⟨tag, body⟩] = some (⟨tag, body⟩, []) := by
  simp [takeFirst]

/-- The root's receive of round `q+1` keeps the invariant. -/
theorem inv_root_recv (size : Int) (L : Nat) (c c' : Config) (q : Nat) (pc : Int → Nat)
    (hsize : c.size = size) (hroot : c.member 0 = rootMember size (4 * q + 3))
    (hq : q < (size - 1).toNat)
    (hL : L = 4 * q + 3 + Finset.sum (Finset.Ico 1 size) pc)
    (hmem : ∀ k : Int, 1 ≤ k → k < size → MemberInv size c (4 * q + 3) (pc k) k)
    (hoth : ∀ a b : Int, (a = 0 ↔ b = 0) → c.chan a b = [])
    (hstep : stepBuffered c 0 = some c') :
    Inv size (L + 1) c' := by
  have hi1 : (1 : Int) ≤ (q : Int) + 1 := by omega
  have hi2 : (q : Int) + 1 < size := by omega
  obtain ⟨K, hK⟩ := ((root_heads size).2.1 q hq).1
  obtain ⟨-, -, n3, -, -, -⟩ := hmem _ hi1 hi2
  rw [step_recv c 0 100 ((q : Int) + 1) 0 K (by rw [hroot]; exact hK), n3] at hstep
  by_cases h5 : 5 ≤ pc ((q : Int) + 1)
  · rw [if_pos ⟨h5, by push_cast; omega⟩, takeFirst_single] at hstep
    simp only [Option.some.injEq] at hstep
    have hadv : (c.member 0).advance c.size 0 (greeting ((q : Int) + 1) size)
        = rootMember size (4 * q + 3 + 1) := by
      rw [rootMember, hroot, hsize]
      have : (4 * q + 3 + 1) / 4 = q + 1 := by omega
      rw [this]; push_cast; rfl
    rw [hadv] at hstep
    subst hstep
    refine ⟨hsize, 4 * q + 3 + 1, pc, ?_, by omega, by omega, ?_, ?_⟩
    rotate_left 2
    · intro a b hab
      rw [Config.setChan_chan]
      split
      · rfl
      · exact hoth a b hab
    · simp [Config.setChan_member, Config.setMember_member]
    intro k h1 h2
    obtain ⟨m1, m2, m3, m4, m5, m6⟩ := hmem k h1 h2
    have hk0 : k ≠ 0 := by omega
    have hne : ¬ ((0 : Int) = (q : Int) + 1 ∧ k = 0) := fun h => hk0 h.2
    refine ⟨by simp [Config.setChan_member, Config.setMember_member, hk0, m1], m2, ?_, ?_, ?_, ?_⟩
    · rw [Config.setChan_chan, Config.setMember_chan]
      by_cases hki : k = (q : Int) + 1
      · subst hki
        rw [if_pos ⟨rfl, rfl⟩, if_neg]
        push_cast; omega
      · rw [if_neg (fun h => hki h.1), m3]
        exact if_congr (by push_cast; omega) rfl rfl
    · rw [Config.setChan_chan, Config.setMember_chan, if_neg hne, m4]
      exact if_congr (by push_cast; omega) rfl rfl
    · intro h
      by_cases hki : k = (q : Int) + 1
      · subst hki; exact h5
      · apply m5; push_cast at h ⊢; omega
    · intro h; have := m6 h; push_cast at this ⊢; omega
  · rw [if_neg (fun h => h5 h.1)] at hstep
    simp [takeFirst] at hstep

/-- The root's send of round `q+1` keeps the invariant. -/
theorem inv_root_send (size : Int) (L : Nat) (c c' : Config) (q : Nat) (pc : Int → Nat)
    (hsize : c.size = size) (hroot : c.member 0 = rootMember size (4 * q + 6))
    (hq : q < (size - 1).toNat)
    (hL : L = 4 * q + 6 + Finset.sum (Finset.Ico 1 size) pc)
    (hmem : ∀ k : Int, 1 ≤ k → k < size → MemberInv size c (4 * q + 6) (pc k) k)
    (hoth : ∀ a b : Int, (a = 0 ↔ b = 0) → c.chan a b = [])
    (hstep : stepBuffered c 0 = some c') :
    Inv size (L + 1) c' := by
  have hi1 : (1 : Int) ≤ (q : Int) + 1 := by omega
  have hi2 : (q : Int) + 1 < size := by omega
  obtain ⟨K, hK⟩ := ((root_heads size).2.1 q hq).2.2.2
  obtain ⟨-, -, -, n4, -, n6⟩ := hmem _ hi1 hi2
  rw [step_send c 0 (greeting (((4 * q + 6 + 1) / 4 : Nat) : Int) size) _ 100 ((q : Int) + 1) 0 K
    (by rw [hroot]; exact hK), n4] at hstep
  have hadv : (c.member 0).advance c.size 0 (greeting (((4 * q + 6 + 1) / 4 : Nat) : Int) size)
      = rootMember size (4 * q + 6 + 1) := by
    rw [rootMember, hroot, hsize]
  have hno : ¬ (4 * ((q : Int) + 1) + 3 ≤ ((4 * q + 6 : Nat) : Int) ∧ pc ((q : Int) + 1) < 6) := by
    intro h; have := h.1; push_cast at this; omega
  rw [hadv, if_neg hno] at hstep
  simp only [Option.some.injEq, List.nil_append] at hstep
  subst hstep
  refine ⟨hsize, 4 * q + 6 + 1, pc, ?_, by omega, by omega, ?_, ?_⟩
  rotate_left 2
  · intro a b hab
    rw [Config.setChan_chan, if_neg (fun h => by omega)]
    exact hoth a b hab
  · simp [Config.setChan_member, Config.setMember_member]
  intro k h1 h2
  obtain ⟨m1, m2, m3, m4, m5, m6⟩ := hmem k h1 h2
  have hk0 : k ≠ 0 := by omega
  have hne : ¬ (k = 0 ∧ (0 : Int) = (q : Int) + 1) := fun h => hk0 h.1
  refine ⟨by simp [Config.setChan_member, Config.setMember_member, hk0, m1], m2, ?_, ?_, ?_, ?_⟩
  · rw [Config.setChan_chan, Config.setMember_chan, if_neg hne, m3]
    exact if_congr (by push_cast; omega) rfl rfl
  · rw [Config.setChan_chan, Config.setMember_chan]
    by_cases hki : k = (q : Int) + 1
    · subst hki
      have hlt : pc ((q : Int) + 1) < 6 := by
        by_contra hc
        have := n6 (by omega)
        push_cast at this; omega
      rw [if_pos ⟨rfl, rfl⟩, if_pos ⟨by push_cast; omega, hlt⟩]
    · rw [if_neg (fun h => hki h.2), m4]
      exact if_congr (by push_cast; omega) rfl rfl
  · intro h; apply m5; push_cast at h ⊢; omega
  · intro h; have := m6 h; push_cast at this ⊢; omega

/-- A step of non-root member `r` that touches no channel keeps the invariant. -/
theorem inv_member_local (size : Int) (L : Nat) (c : Config) (j : Nat) (pc : Int → Nat)
    (r : Int) (hr1 : 1 ≤ r) (hr2 : r < size)
    (hsize : c.size = size) (hroot : c.member 0 = rootMember size j)
    (hj : j ≤ 4 * (size - 1).toNat + 4)
    (hL : L = j + Finset.sum (Finset.Ico 1 size) pc)
    (hmem : ∀ k : Int, 1 ≤ k → k < size → MemberInv size c j (pc k) k)
    (hoth : ∀ a b : Int, (a = 0 ↔ b = 0) → c.chan a b = [])
    (hp : pc r < 4 ∨ pc r = 6 ∨ pc r = 7) :
    Inv size (L + 1) (c.setMember r (nonRootMember size r (pc r + 1))) := by
  have hr0 : (0 : Int) ≠ r := by omega
  refine ⟨hsize, j, fun k => if k = r then pc r + 1 else pc k, ?_, hj, ?_, ?_, hoth⟩
  · simp [Config.setMember_member, hr0, hroot]
  · rw [sum_bump size r pc hr1 hr2]; omega
  intro k h1 h2
  obtain ⟨m1, m2, m3, m4, m5, m6⟩ := hmem k h1 h2
  by_cases hkr : k = r
  · subst hkr
    simp only [if_true]
    refine ⟨by simp [Config.setMember_member], by omega, ?_, ?_, ?_, ?_⟩
    · rw [Config.setMember_chan, m3]
      exact if_congr (by omega) rfl rfl
    · rw [Config.setMember_chan, m4]
      exact if_congr (by omega) rfl rfl
    · intro h; have := m5 h; omega
    · intro h; apply m6; omega
  · simp only [if_neg hkr]
    exact ⟨by simp [Config.setMember_member, hkr, m1], m2, m3, m4, m5, m6⟩

/-- The send of non-root member `r` keeps the invariant. -/
theorem inv_member_send (size : Int) (L : Nat) (c c' : Config) (j : Nat) (pc : Int → Nat)
    (r : Int) (hr1 : 1 ≤ r) (hr2 : r < size)
    (hsize : c.size = size) (hroot : c.member 0 = rootMember size j)
    (hj : j ≤ 4 * (size - 1).toNat + 4)
    (hL : L = j + Finset.sum (Finset.Ico 1 size) pc)
    (hmem : ∀ k : Int, 1 ≤ k → k < size → MemberInv size c j (pc k) k)
    (hoth : ∀ a b : Int, (a = 0 ↔ b = 0) → c.chan a b = [])
    (hp : pc r = 4) (hstep : stepBuffered c r = some c') :
    Inv size (L + 1) c' := by
  have hr0 : (0 : Int) ≠ r := by omega
  have hrne : r ≠ 0 := by omega
  obtain ⟨n1, -, n3, -, n5, -⟩ := hmem r hr1 hr2
  obtain ⟨K, hK⟩ := (nonRoot_heads size r hrne).2.1
  rw [hp] at n1 n3 n5
  rw [step_send c r (ackText r) _ 100 0 0 K (by rw [n1]; exact hK), n3] at hstep
  have hadv : (c.member r).advance c.size r (ackText r) = nonRootMember size r (4 + 1) := by
    rw [nonRootMember, n1, hsize]
  rw [hadv, if_neg (fun h => absurd h.1 (by omega))] at hstep
  simp only [Option.some.injEq, List.nil_append] at hstep
  subst hstep
  refine ⟨hsize, j, fun k => if k = r then pc r + 1 else pc k, ?_, hj, ?_, ?_, ?_⟩
  rotate_left 3
  · intro a b hab
    rw [Config.setChan_chan, if_neg (fun h => by omega)]
    exact hoth a b hab
  · simp [Config.setChan_member, Config.setMember_member, hr0, hroot]
  · rw [sum_bump size r pc hr1 hr2]; omega
  intro k h1 h2
  obtain ⟨m1, m2, m3, m4, m5, m6⟩ := hmem k h1 h2
  have hk0 : k ≠ 0 := by omega
  have hne : ¬ ((0 : Int) = r ∧ k = 0) := fun h => hk0 h.2
  by_cases hkr : k = r
  · subst hkr
    simp only [if_true, hp]
    have hjlt : (j : Int) < 4 * k := by
      by_contra hc
      have := n5 (by omega)
      omega
    refine ⟨by simp [Config.setChan_member, Config.setMember_member], by omega, ?_, ?_, ?_, ?_⟩
    · rw [Config.setChan_chan, if_pos ⟨rfl, rfl⟩, if_pos ⟨by omega, hjlt⟩]
    · rw [Config.setChan_chan, Config.setMember_chan, if_neg hne, m4, hp]
      exact if_congr (by omega) rfl rfl
    · intro _; omega
    · intro h; omega
  · simp only [if_neg hkr]
    refine ⟨by simp [Config.setChan_member, Config.setMember_member, hkr, m1], m2, ?_, ?_, m5, m6⟩
    · rw [Config.setChan_chan, Config.setMember_chan, if_neg (fun h => hkr h.1), m3]
    · rw [Config.setChan_chan, Config.setMember_chan, if_neg hne, m4]

/-- The receive of non-root member `r` keeps the invariant. -/
theorem inv_member_recv (size : Int) (L : Nat) (c c' : Config) (j : Nat) (pc : Int → Nat)
    (r : Int) (hr1 : 1 ≤ r) (hr2 : r < size)
    (hsize : c.size = size) (hroot : c.member 0 = rootMember size j)
    (hj : j ≤ 4 * (size - 1).toNat + 4)
    (hL : L = j + Finset.sum (Finset.Ico 1 size) pc)
    (hmem : ∀ k : Int, 1 ≤ k → k < size → MemberInv size c j (pc k) k)
    (hoth : ∀ a b : Int, (a = 0 ↔ b = 0) → c.chan a b = [])
    (hp : pc r = 5) (hstep : stepBuffered c r = some c') :
    Inv size (L + 1) c' := by
  have hr0 : (0 : Int) ≠ r := by omega
  have hrne : r ≠ 0 := by omega
  obtain ⟨n1, -, -, n4, -, -⟩ := hmem r hr1 hr2
  obtain ⟨K, hK⟩ := (nonRoot_heads size r hrne).2.2.1
  rw [hp] at n1 n4
  rw [step_recv c r 100 0 0 K (by rw [n1]; exact hK), n4] at hstep
  by_cases hack : 4 * r + 3 ≤ (j : Int)
  · rw [if_pos ⟨hack, by omega⟩, takeFirst_single] at hstep
    simp only [Option.some.injEq] at hstep
    have hadv : (c.member r).advance c.size r (ackText r) = nonRootMember size r (5 + 1) := by
      rw [nonRootMember, n1, hsize]
    rw [hadv] at hstep
    subst hstep
    refine ⟨hsize, j, fun k => if k = r then pc r + 1 else pc k, ?_, hj, ?_, ?_, ?_⟩
    rotate_left 3
    · intro a b hab
      rw [Config.setChan_chan]
      split
      · rfl
      · exact hoth a b hab
    · simp [Config.setChan_member, Config.setMember_member, hr0, hroot]
    · rw [sum_bump size r pc hr1 hr2]; omega
    intro k h1 h2
    obtain ⟨m1, m2, m3, m4, m5, m6⟩ := hmem k h1 h2
    have hk0 : k ≠ 0 := by omega
    have hne : ¬ (k = 0 ∧ (0 : Int) = r) := fun h => hk0 h.1
    by_cases hkr : k = r
    · subst hkr
      simp only [if_true, hp]
      refine ⟨by simp [Config.setChan_member, Config.setMember_member], by omega, ?_, ?_, ?_, ?_⟩
      · rw [Config.setChan_chan, Config.setMember_chan, if_neg hne, m3, hp]
        exact if_congr (by omega) rfl rfl
      · rw [Config.setChan_chan, if_pos ⟨rfl, rfl⟩, if_neg (fun h => absurd h.2 (by omega))]
      · intro _; omega
      · intro _; exact hack
    · simp only [if_neg hkr]
      refine ⟨by simp [Config.setChan_member, Config.setMember_member, hkr, m1], m2, ?_, ?_, m5, m6⟩
      · rw [Config.setChan_chan, Config.setMember_chan, if_neg hne, m3]
      · rw [Config.setChan_chan, Config.setMember_chan, if_neg (fun h => hkr h.2), m4]
  · rw [if_neg (fun h => hack h.1)] at hstep
    simp [takeFirst] at hstep

theorem step_root_local (size : Int) (c c' : Config) (j : Nat)
    (hsize : c.size = size) (hroot : c.member 0 = rootMember size j)
    (hloc : (rootMember size j).prog.isLocal = true) (hstep : stepBuffered c 0 = some c') :
    c' = c.setMember 0 (rootMember size (j + 1)) := by
  rw [step_local c 0 (greeting (((j + 1) / 4 : Nat) : Int) size) (by rw [hroot]; exact hloc)]
    at hstep
  simp only [Option.some.injEq] at hstep
  rw [← hstep, rootMember, hroot, hsize]

theorem step_member_local (size : Int) (c c' : Config) (r : Int) (p : Nat)
    (hsize : c.size = size) (hmem : c.member r = nonRootMember size r p)
    (hloc : (nonRootMember size r p).prog.isLocal = true) (hstep : stepBuffered c r = some c') :
    c' = c.setMember r (nonRootMember size r (p + 1)) := by
  rw [step_local c r (ackText r) (by rw [hmem]; exact hloc)] at hstep
  simp only [Option.some.injEq] at hstep
  rw [← hstep, nonRootMember, hmem, hsize]

/-- Every step of a member of the group keeps the invariant. -/
theorem inv_step (size : Int) (L : Nat) (c c' : Config) (r : Int)
    (hinv : Inv size L c) (hr1 : 0 ≤ r) (hr2 : r < size) (hstep : stepBuffered c r = some c') :
    Inv size (L + 1) c' := by
  obtain ⟨hsize, j, pc, hroot, hj, hL, hmem, hoth⟩ := hinv
  obtain ⟨rh0, rhq, rhf, rhr⟩ := root_heads size
  by_cases hr : r = 0
  · subst hr
    by_cases hj3 : j < 3
    · rw [step_root_local size c c' j hsize hroot (rh0 j hj3) hstep]
      exact inv_root_local size L c j pc hsize (by omega) hL hmem hoth
        (fun k h1 h2 => ⟨by omega, by omega⟩)
    · obtain ⟨q, ph, hph, rfl⟩ : ∃ q ph : Nat, ph < 4 ∧ j = 4 * q + 3 + ph :=
        ⟨(j - 3) / 4, (j - 3) % 4, by omega, by omega⟩
      by_cases hq : q < (size - 1).toNat
      · obtain ⟨-, hl1, hl2, -⟩ := rhq q hq
        interval_cases ph
        · exact inv_root_recv size L c c' q pc hsize hroot hq hL hmem hoth hstep
        · rw [step_root_local size c c' _ hsize hroot hl1 hstep]
          exact inv_root_local size L c _ pc hsize (by omega) hL hmem hoth
            (fun k h1 h2 => ⟨by push_cast; omega, by push_cast; omega⟩)
        · rw [step_root_local size c c' _ hsize hroot hl2 hstep]
          exact inv_root_local size L c _ pc hsize (by omega) hL hmem hoth
            (fun k h1 h2 => ⟨by push_cast; omega, by push_cast; omega⟩)
        · exact inv_root_send size L c c' q pc hsize hroot hq hL hmem hoth hstep
      · have hqn : q = (size - 1).toNat := by omega
        subst hqn
        have hph1 : ph ≤ 1 := by omega
        interval_cases ph
        · rw [step_root_local size c c' _ hsize hroot rhf hstep]
          exact inv_root_local size L c _ pc hsize (by omega) hL hmem hoth
            (fun k h1 h2 => ⟨by push_cast; omega, by push_cast; omega⟩)
        · rw [step_ret c 0 0 (by rw [hroot]; exact rhr)] at hstep
          cases hstep
  · have h1 : 1 ≤ r := by omega
    obtain ⟨n1, n2, -, -, -, -⟩ := hmem r h1 hr2
    obtain ⟨nh0, -, -, nh6, nh7, nh8⟩ := nonRoot_heads size r hr
    have hcase : pc r < 4 ∨ pc r = 4 ∨ pc r = 5 ∨ pc r = 6 ∨ pc r = 7 ∨ pc r = 8 := by omega
    rcases hcase with hp | hp | hp | hp | hp | hp
    · rw [step_member_local size c c' r (pc r) hsize n1 (nh0 _ hp) hstep]
      exact inv_member_local size L c j pc r h1 hr2 hsize hroot hj hL hmem hoth (Or.inl hp)
    · exact inv_member_send size L c c' j pc r h1 hr2 hsize hroot hj hL hmem hoth hp hstep
    · exact inv_member_recv size L c c' j pc r h1 hr2 hsize hroot hj hL hmem hoth hp hstep
    · rw [step_member_local size c c' r (pc r) hsize n1 (by rw [hp]; exact nh6) hstep]
      exact inv_member_local size L c j pc r h1 hr2 hsize hroot hj hL hmem hoth (Or.inr (Or.inl hp))
    · rw [step_member_local size c c' r (pc r) hsize n1 (by rw [hp]; exact nh7) hstep]
      exact inv_member_local size L c j pc r h1 hr2 hsize hroot hj hL hmem hoth (Or.inr (Or.inr hp))
    · rw [hp] at n1
      rw [step_ret c r 0 (by rw [n1]; exact nh8)] at hstep
      cases hstep

theorem step_eq_some (sync : Bool) (c c' : Config) (r : Int)
    (h : step sync c r = some c') : stepBuffered c r = some c' := by
  unfold step at h
  split at h
  · cases h
  · exact h

theorem step_not_pending (sync : Bool) (c : Config) (r : Int) (h : c.pending r = false) :
    step sync c r = stepBuffered c r := by
  unfold step
  rw [h, Bool.and_false]
  rfl

/-- Every schedule that runs keeps the invariant and counts its steps. -/
theorem inv_run (sync : Bool) (size : Int) (sched : List Int) :
    ∀ (L : Nat) (c c' : Config), Inv size L c → run sync c sched = some c' →
      Inv size (L + sched.length) c' := by
  induction sched with
  | nil =>
    intro L c c' hinv hrun
    simp only [run, Option.some.injEq] at hrun
    subst hrun
    exact hinv
  | cons r rs ih =>
    intro L c c' hinv hrun
    rw [run] at hrun
    by_cases hr : 0 ≤ r ∧ r < c.size
    · rw [if_pos hr] at hrun
      cases hs : step sync c r with
      | none => rw [hs] at hrun; cases hrun
      | some c1 =>
        rw [hs] at hrun
        have h1 := inv_step size L c c1 r hinv hr.1 (by rw [← hinv.1]; exact hr.2)
          (step_eq_some sync c c1 r hs)
        have h2 := ih (L + 1) c1 c' h1 hrun
        have e : L + (r :: rs).length = L + 1 + rs.length := by simp; omega
        rw [e]; exact h2
    · rw [if_neg hr] at hrun
      cases hrun

theorem member_can_move_before_recv (size : Int) (c : Config) (r : Int) (p : Nat)
    (hr : r ≠ 0) (hmem : c.member r = nonRootMember size r p)
    (hp : p < 5 ∨ p = 6 ∨ p = 7) : (stepBuffered c r).isSome = true := by
  obtain ⟨nh0, ⟨K, nh4⟩, -, nh6, nh7, -⟩ := nonRoot_heads size r hr
  have hloc : p ≠ 4 → (nonRootMember size r p).prog.isLocal = true := by
    intro h4
    rcases hp with h | h | h
    · exact nh0 p (by omega)
    · rw [h]; exact nh6
    · rw [h]; exact nh7
  by_cases h4 : p = 4
  · subst h4
    rw [step_send c r "" _ 100 0 0 K (by rw [hmem]; exact nh4)]
    rfl
  · rw [step_local c r "" (by rw [hmem]; exact hloc h4)]
    rfl


/-- A non-root member has a message in transit only between its send and
the root's receive of it. -/
theorem member_not_pending (size : Int) (c : Config) (j p : Nat) (k : Int)
    (hk1 : 1 ≤ k) (hm : MemberInv size c j p k)
    (hoth : ∀ a b : Int, (a = 0 ↔ b = 0) → c.chan a b = [])
    (hno : ¬ (5 ≤ p ∧ (j : Int) < 4 * k)) : c.pending k = false := by
  obtain ⟨-, -, m3, -, -, -⟩ := hm
  rw [if_neg hno] at m3
  unfold Config.pending
  rw [List.any_eq_false]
  intro d _
  by_cases hd : (d : Int) = 0
  · rw [hd, m3]; simp
  · rw [hoth k d (by constructor <;> intro h <;> omega)]; simp

/-- The root has a message in transit only between its send to some member
and that member's receive. -/
theorem root_pending (size : Int) (c : Config) (j : Nat) (pc : Int → Nat)
    (hsize : c.size = size)
    (hmem : ∀ k : Int, 1 ≤ k → k < size → MemberInv size c j (pc k) k)
    (hoth : ∀ a b : Int, (a = 0 ↔ b = 0) → c.chan a b = [])
    (hp : c.pending 0 = true) :
    ∃ k : Int, 1 ≤ k ∧ k < size ∧ 4 * k + 3 ≤ (j : Int) ∧ pc k < 6 := by
  unfold Config.pending at hp
  rw [List.any_eq_true] at hp
  obtain ⟨d, hd, hne⟩ := hp
  rw [List.mem_range, hsize] at hd
  by_cases hd0 : (d : Int) = 0
  · rw [hd0, hoth 0 0 (by simp)] at hne
    simp at hne
  · have h1 : (1 : Int) ≤ d := by omega
    have h2 : (d : Int) < size := by omega
    obtain ⟨-, -, -, m4, -, -⟩ := hmem d h1 h2
    by_cases hc : 4 * (d : Int) + 3 ≤ (j : Int) ∧ pc d < 6
    · exact ⟨d, h1, h2, hc.1, hc.2⟩
    · rw [m4, if_neg hc] at hne
      simp at hne

/-- No deadlock: in a configuration that satisfies the invariant some member
can move, unless every member has returned. -/
theorem inv_progress (sync : Bool) (size : Int) (L : Nat) (c : Config) (hinv : Inv size L c) :
    (∃ r : Int, 0 ≤ r ∧ r < size ∧ (step sync c r).isSome = true) ∨ c.Finished := by
  obtain ⟨hsize, j, pc, hroot, hj, hL, hmem, hoth⟩ := hinv
  obtain ⟨rh0, rhq, rhf, rhr⟩ := root_heads size
  by_cases hs : size ≤ 0
  · right
    intro r h1 h2
    rw [hsize] at h2
    omega
  have hs1 : 1 ≤ size := by omega
  -- a non-root member that is not waiting for the root's receive moves as with buffered sends
  have memberMoves : ∀ k : Int, 1 ≤ k → k < size → ¬ (5 ≤ pc k ∧ (j : Int) < 4 * k) →
      (stepBuffered c k).isSome = true →
      (∃ r : Int, 0 ≤ r ∧ r < size ∧ (step sync c r).isSome = true) := by
    intro k hk1 hk2 hno hmove
    refine ⟨k, by omega, hk2, ?_⟩
    rw [step_not_pending sync c k
      (member_not_pending size c j (pc k) k hk1 (hmem k hk1 hk2) hoth hno)]
    exact hmove
  by_cases hp0 : c.pending 0 = true
  · -- the root waits for member `k` to receive its acknowledgment
    left
    obtain ⟨k, hk1, hk2, hkj, hk6⟩ := root_pending size c j pc hsize hmem hoth hp0
    obtain ⟨m1, m2, -, m4, m5, -⟩ := hmem k hk1 hk2
    have h5 : pc k = 5 := by have := m5 (by omega); omega
    have hk0 : k ≠ 0 := by omega
    obtain ⟨K, hK⟩ := (nonRoot_heads size k hk0).2.2.1
    refine memberMoves k hk1 hk2 (by omega) ?_
    rw [h5] at m1 m4
    rw [step_recv c k 100 0 0 K (by rw [m1]; exact hK), m4,
      if_pos ⟨hkj, by omega⟩, takeFirst_single]
    rfl
  have hnp : step sync c 0 = stepBuffered c 0 :=
    step_not_pending sync c 0 (by simpa using hp0)
  have rootLocal : (rootMember size j).prog.isLocal = true →
      (∃ r : Int, 0 ≤ r ∧ r < size ∧ (step sync c r).isSome = true) := by
    intro hloc
    refine ⟨0, le_rfl, by omega, ?_⟩
    rw [hnp, step_local c 0 "" (by rw [hroot]; exact hloc)]
    rfl
  by_cases hj3 : j < 3
  · exact Or.inl (rootLocal (rh0 j hj3))
  obtain ⟨q, ph, hph, rfl⟩ : ∃ q ph : Nat, ph < 4 ∧ j = 4 * q + 3 + ph :=
    ⟨(j - 3) / 4, (j - 3) % 4, by omega, by omega⟩
  by_cases hq : q < (size - 1).toNat
  · left
    obtain ⟨⟨K0, hrecv⟩, hl1, hl2, ⟨K3, hsend⟩⟩ := rhq q hq
    have hi1 : (1 : Int) ≤ (q : Int) + 1 := by omega
    have hi2 : (q : Int) + 1 < size := by omega
    interval_cases ph
    · obtain ⟨m1, m2, m3, -, -, -⟩ := hmem _ hi1 hi2
      by_cases h5 : 5 ≤ pc ((q : Int) + 1)
      · refine ⟨0, le_rfl, by omega, ?_⟩
        rw [hnp, step_recv c 0 100 ((q : Int) + 1) 0 K0 (by rw [hroot]; exact hrecv), m3,
          if_pos ⟨h5, by push_cast; omega⟩, takeFirst_single]
        rfl
      · exact memberMoves _ hi1 hi2 (fun h => h5 h.1)
          (member_can_move_before_recv size c _ _ (by omega) m1 (Or.inl (by omega)))
    · exact rootLocal hl1
    · exact rootLocal hl2
    · refine ⟨0, le_rfl, by omega, ?_⟩
      rw [hnp, step_send c 0 "" _ 100 ((q : Int) + 1) 0 K3 (by rw [hroot]; exact hsend)]
      rfl
  · have hqn : q = (size - 1).toNat := by omega
    subst hqn
    have hph1 : ph ≤ 1 := by omega
    interval_cases ph
    · exact Or.inl (rootLocal rhf)
    · by_cases hall : ∀ k : Int, 1 ≤ k → k < size → pc k = 8
      · right
        intro r h1 h2
        rw [hsize] at h2
        by_cases hr : r = 0
        · subst hr; rw [hroot]; exact rhr
        · have hk1 : 1 ≤ r := by omega
          obtain ⟨m1, -, -, -, -, -⟩ := hmem r hk1 h2
          rw [m1, hall r hk1 h2]
          exact (nonRoot_heads size r hr).2.2.2.2.2
      · left
        push_neg at hall
        obtain ⟨k, hk1, hk2, hk8⟩ := hall
        obtain ⟨m1, m2, -, m4, -, -⟩ := hmem k hk1 hk2
        have hk0 : k ≠ 0 := by omega
        refine memberMoves k hk1 hk2 (fun h => by have := h.2; push_cast at this; omega) ?_
        by_cases h5 : pc k = 5
        · obtain ⟨K, hK⟩ := (nonRoot_heads size k hk0).2.2.1
          rw [h5] at m1 m4
          rw [step_recv c k 100 0 0 K (by rw [m1]; exact hK), m4,
            if_pos ⟨by push_cast; omega, by omega⟩, takeFirst_single]
          rfl
        · exact member_can_move_before_recv size c k _ hk0 m1 (by omega)

/-- The number of steps of a configuration that satisfies the invariant. -/
theorem inv_bound (size : Int) (L : Nat) (c : Config) (hinv : Inv size L c) :
    L ≤ 12 * (size - 1).toNat + 4 := by
  obtain ⟨hsize, j, pc, hroot, hj, hL, hmem, -⟩ := hinv
  have hsum : Finset.sum (Finset.Ico 1 size) pc ≤ (Finset.Ico 1 size).card • 8 := by
    apply Finset.sum_le_card_nsmul
    intro k hk
    rw [Finset.mem_Ico] at hk
    exact (hmem k hk.1 hk.2).2.1
  rw [Int.card_Ico, smul_eq_mul] at hsum
  omega

/-- What the invariant says about non-root member `k`. -/
theorem inv_member_outcome (size : Int) (L : Nat) (c : Config) (hinv : Inv size L c)
    (k : Int) (hk1 : 1 ≤ k) (hk2 : k < size) :
    (recvsOf (c.member k).trace = []
        ∨ recvsOf (c.member k).trace = [Event.recv 0 0 100 (ackText k)])
      ∧ ((c.member k).prog = .ret 0 →
          (c.member k).trace =
            [Event.print ("(Process " ++ fmtD k ++ ") Sending message: \"" ++ greeting k size
                ++ "\" to process 0.\n"),
             Event.send 0 0 100 (greeting k size),
             Event.recv 0 0 100 (ackText k),
             Event.print ("(Process " ++ fmtD k ++ ") Received response: \"" ++ ackText k
                ++ "\" from process 0.\n"),
             Event.finalize]
          ∧ c.chan 0 k = [] ∧ c.chan k 0 = []) := by
  obtain ⟨hsize, j, pc, hroot, hj, hL, hmem, -⟩ := hinv
  obtain ⟨m1, m2, m3, m4, m5, m6⟩ := hmem k hk1 hk2
  have hk0 : k ≠ 0 := by omega
  obtain ⟨t5, t6, t8⟩ := nonRoot_traces size k hk0
  obtain ⟨nh0, ⟨K4, nh4⟩, ⟨K5, nh5⟩, nh6, nh7, nh8⟩ := nonRoot_heads size k hk0
  refine ⟨?_, ?_⟩
  · rw [m1]
    by_cases h5 : pc k ≤ 5
    · exact Or.inl (t5 _ h5)
    · exact Or.inr (t6 _ (by omega) m2)
  · intro hret
    rw [m1] at hret
    have h8 : pc k = 8 := by
      by_contra hne
      have hcase : pc k < 4 ∨ pc k = 4 ∨ pc k = 5 ∨ pc k = 6 ∨ pc k = 7 := by omega
      rcases hcase with h | h | h | h | h
      · have := nh0 _ h; rw [hret] at this; cases this
      · rw [h, nh4] at hret; cases hret
      · rw [h, nh5] at hret; cases hret
      · rw [h] at hret; rw [hret] at nh6; cases nh6
      · rw [h] at hret; rw [hret] at nh7; cases nh7
    have hj' := m6 (by omega)
    rw [h8] at m1 m3 m4
    refine ⟨by rw [m1]; exact t8, ?_, ?_⟩
    · rw [m4, if_neg (fun h => absurd h.2 (by omega))]
    · rw [m3, if_neg (fun h => absurd h.2 (by omega))]


/-- From a configuration that satisfies the invariant the group can run on
until every member has returned. -/
theorem inv_completion (sync : Bool) (size : Int) :
    ∀ (n L : Nat) (c : Config), Inv size L c → 12 * (size - 1).toNat + 4 - L ≤ n →
      ∃ (rest : List Int) (c' : Config), run sync c rest = some c' ∧ c'.Finished := by
  intro n
  induction n with
  | zero =>
    intro L c hinv hn
    rcases inv_progress sync size L c hinv with ⟨r, h1, h2, hs⟩ | hfin
    · obtain ⟨c1, hc1⟩ := Option.isSome_iff_exists.mp hs
      have hb := inv_bound size (L + 1) c1
        (inv_step size L c c1 r hinv h1 h2 (step_eq_some sync c c1 r hc1))
      omega
    · exact ⟨[], c, rfl, hfin⟩
  | succ n ih =>
    intro L c hinv hn
    rcases inv_progress sync size L c hinv with ⟨r, h1, h2, hs⟩ | hfin
    · obtain ⟨c1, hc1⟩ := Option.isSome_iff_exists.mp hs
      have hinv1 := inv_step size L c c1 r hinv h1 h2 (step_eq_some sync c c1 r hc1)
      obtain ⟨rest, c', hrun, hfin⟩ := ih (L + 1) c1 hinv1 (by omega)
      refine ⟨r :: rest, c', ?_, hfin⟩
      rw [run, if_pos ⟨h1, by rw [hinv.1]; exact h2⟩, hc1]
      exact hrun
    · exact ⟨[], c, rfl, hfin⟩

/-- C6. Exchange mode, whole group: all members run `mpi_hello_3.c` over
FIFO channels; a receive blocks until a message from the named sender with
the named tag is there, and a send either returns once its message is in the
channel (`sync = false`) or only once the message has been received
(`sync = true`).  For every group size and every configuration `c` reached
by a schedule: the schedule has at most `12*(size-1)+4` steps, so no run
goes on forever; some member can move unless every member has returned, so
no member stays blocked; the group can run on from `c` until every member
has returned; and every non-root member `k` has received nothing or exactly
the message "Acknowledgment from process 0 to process k", and once it has
returned its trace is: report, send of its greeting, receive of that
acknowledgment, report, teardown, with nothing left in the channels between
it and the root. -/
theorem exchange_group_completes (sync : Bool) (size : Int) (sched : List Int) (c : Config)
    (hrun : run sync (Config.init mpi_hello_3.main size) sched = some c) :
    sched.length ≤ 12 * (size - 1).toNat + 4
      ∧ ((∃ r : Int, 0 ≤ r ∧ r < size ∧ (step sync c r).isSome = true) ∨ c.Finished)
      ∧ (∃ (rest : List Int) (c' : Config), run sync c rest = some c' ∧ c'.Finished)
      ∧ ∀ k : Int, 1 ≤ k → k < size →
          (recvsOf (c.member k).trace = []
            ∨ recvsOf (c.member k).trace =
              [Event.recv 0 0 100 ("Acknowledgment from process 0 to process " ++ fmtD k)])
          ∧ ((c.member k).prog = .ret 0 →
              (c.member k).trace =
                [Event.print ("(Process " ++ fmtD k ++ ") Sending message: \""
                    ++ ("Hello from process " ++ fmtD k ++ " of " ++ fmtD size ++ "!")
                    ++ "\" to process 0.\n"),
                 Event.send 0 0 100
                    ("Hello from process " ++ fmtD k ++ " of " ++ fmtD size ++ "!"),
                 Event.recv 0 0 100 ("Acknowledgment from process 0 to process " ++ fmtD k),
                 Event.print ("(Process " ++ fmtD k ++ ") Received response: \""
                    ++ ("Acknowledgment from process 0 to process " ++ fmtD k)
                    ++ "\" from process 0.\n"),
                 Event.finalize]
              ∧ c.chan 0 k = [] ∧ c.chan k 0 = []) := by
  have hinv := inv_run sync size sched 0 _ c (inv_init size) hrun
  rw [Nat.zero_add] at hinv
  exact ⟨inv_bound size _ c hinv, inv_progress sync size _ c hinv,
    inv_completion sync size _ _ c hinv le_rfl,
    fun k h1 h2 => inv_member_outcome size _ c hinv k h1 h2⟩

/-- Witness for C6: a group of two with synchronous sends, run to the end by
the schedule in which the root starts up, member 1 runs up to its send, the
root does its round, member 1 receives and finishes, and the root tears down. -/
theorem exchange_group_completes_witness :
    run true (Config.init mpi_hello_3.main 2) [0, 0, 0, 1, 1, 1, 1, 1, 0, 0, 0, 0, 1, 1, 1, 0]
        = some exchangeOfTwoDone
      ∧ [(0 : Int), 0, 0, 1, 1, 1, 1, 1, 0, 0, 0, 0, 1, 1, 1, 0].length
        ≤ 12 * ((2 : Int) - 1).toNat + 4
      ∧ ((∃ r : Int, 0 ≤ r ∧ r < 2 ∧ (step true exchangeOfTwoDone r).isSome = true)
        ∨ exchangeOfTwoDone.Finished) := by
  have hloop : ∀ k : Prog, mpi_hello_3.rootLoop 2 1 k =
      .mpiRecv 100 1 0 fun MESSAGE_ITEM =>
      .printf ("(Process 0) Received message: \"" ++ MESSAGE_ITEM ++ "\" from process "
          ++ fmtD 1 ++ "\n") <|
      .printf ("(Process 0) Sending message: \""
          ++ ("Acknowledgment from process 0 to process " ++ fmtD 1)
          ++ "\" to process " ++ fmtD 1 ++ "\n") <|
      .mpiSend ("Acknowledgment from process 0 to process " ++ fmtD 1) 100 1 0 k := by
    intro k
    have h2 : mpi_hello_3.rootLoop 2 (1 + 1) k = k := by
      rw [mpi_hello_3.rootLoop, if_neg (by decide)]
    rw [mpi_hello_3.rootLoop, if_pos (by decide), h2]
  have f1 : fmtD 1 = "1" := by decide
  have f2 : fmtD 2 = "2" := by decide
  have hrange : List.range 2 = [0, 1] := by decide
  have hrun : run true (Config.init mpi_hello_3.main 2)
      [0, 0, 0, 1, 1, 1, 1, 1, 0, 0, 0, 0, 1, 1, 1, 0] = some exchangeOfTwoDone := by
    simp [run, step, stepBuffered, Config.pending, hrange, Config.init, mpi_hello_3.main, hloop,
      Member.advance, Config.setMember, Config.setChan, takeFirst, exchangeOfTwoDone, f1, f2]
    constructor
    · funext x
      by_cases h0 : x = 0
      · simp [h0]
      · by_cases h1 : x = 1
        · simp [h1]
        · simp [h0, h1]
    · funext a b
      by_cases h0 : a = 0 ∧ b = 1
      · simp [h0]
      · by_cases h1 : a = 1 ∧ b = 0
        · simp [h1]
        · simp [h0, h1]
  have h := exchange_group_completes true 2 _ exchangeOfTwoDone hrun
  exact ⟨hrun, h.1, h.2.1⟩

end MpiBasics
